import Mathlib

/-!
# Verification of the whimsy face-clustering core

Shallow embedding of `src/lib/face-clustering.ts` and the name-resolution /
state-machine parts of `src/lib/face-processing.ts`.

Modelling conventions:
* JavaScript numbers are modelled by an arbitrary linear ordered field `K`
  (instantiated at `ℚ` for executable witnesses and at `ℝ` where the exact
  square root matters).  `Math.sqrt` is passed explicitly as a function
  parameter `sq : K → K`; at `K = ℝ` it is `Real.sqrt`.
* `Map` objects are modelled as insertion-ordered association lists, `Set`
  objects as insertion-ordered duplicate-free lists (JS `Map`/`Set` iterate
  in insertion order, which the source relies on).
* `Infinity` entries of the distance matrix are modelled by `⊤ : WithTop K`;
  as in IEEE arithmetic, `⊤ < ⊤` is false, which matches every comparison
  the source performs on `Infinity`.
* Division by zero yields 0 in a field, while in JS it yields `NaN`/`Infinity`.
  The one place this is observable (`avgDist = count > 0 ? total/count :
  Infinity` and the empty-anchor average in `assignFaceToCluster`) is modelled
  explicitly with the source's own `count > 0` guard resp. an `Option`.
-/

section DataModel

variable (K : Type)

/-- `{r, g, b}` skin-tone triple (`skinTone` field of `FaceDetection`). -/
structure RGB where
  r : K
  g : K
  b : K
  deriving DecidableEq

/-- `{x, y, width, height}` bounding box (`box` field of `FaceDetection`). -/
structure Box where
  x : K
  y : K
  width : K
  height : K
  deriving DecidableEq

/-- A 2-D landmark point (an entry of `landmarks.positions`). -/
structure Pt where
  x : K
  y : K
  deriving DecidableEq

/-- `FaceDetection` from `src/lib/face-detection.ts`: `id`, `box`,
`descriptor` (float vector), optional `landmarks` (modelled by their
`positions` array), optional `score`, `quality`, `skinTone`. -/
structure FaceDetection where
  id : String
  box : Box K
  descriptor : List K
  landmarks : Option (List (Pt K))
  score : Option K
  quality : Option K
  skinTone : Option (RGB K)
  deriving DecidableEq

/-- `FaceCluster` from `src/lib/face-clustering.ts`. -/
structure FaceCluster where
  id : String
  faceIds : List String
  anchors : List (List K)
  skinTone : Option (RGB K)
  photoCount : Nat
  representativeFaceId : String
  qualityScore : K
  deriving DecidableEq

/-- `ClusterNode` from `src/lib/face-clustering.ts` (the `merged` flag is
declared in the source but never read, so it is omitted).  `faces` holds
`{face, photoId}` pairs; `photoIds` models the JS `Set<string>` as an
insertion-ordered duplicate-free list. -/
structure ClusterNode where
  id : String
  faces : List (FaceDetection K × String)
  photoIds : List String
  deriving DecidableEq

end DataModel

section Metric

variable {K : Type} [LinearOrderedField K] (sq : K → K)

/-- `faceDistance` from `src/lib/face-detection.ts`: Euclidean distance of
descriptor vectors (`faceapi.euclideanDistance`, the external face-api.js
implementation of `sqrt (Σ (a i - b i)²)`). -/
def faceDistance (d1 d2 : List K) : K :=
  sq (((d1.zip d2).map fun p => (p.1 - p.2) ^ 2).sum)

/-- `skinToneSimilarity` from `src/lib/face-clustering.ts` lines 23-31:
missing tone on either side gives `1.0`, otherwise the RGB Euclidean
distance divided by `441.67`. -/
def skinToneSimilarity : Option (RGB K) → Option (RGB K) → K
  | some t1, some t2 =>
      sq ((t1.r - t2.r) ^ 2 + (t1.g - t2.g) ^ 2 + (t1.b - t2.b) ^ 2) / 441.67
  | _, _ => 1

/-- The two scale-invariant landmark ratios computed by `getProp`
(`face-clustering.ts` lines 50-56) from `positions` indices 36, 45, 30, 62. -/
def getProp (pos : List (Pt K)) : K × K :=
  let dummyPt : Pt K := ⟨0, 0⟩
  let p36 := pos.getD 36 dummyPt
  let p45 := pos.getD 45 dummyPt
  let p30 := pos.getD 30 dummyPt
  let p62 := pos.getD 62 dummyPt
  let eyeDist := sq ((p36.x - p45.x) ^ 2 + (p36.y - p45.y) ^ 2)
  let eyeToNose := sq (((p36.x + p45.x) / 2 - p30.x) ^ 2 + ((p36.y + p45.y) / 2 - p30.y) ^ 2)
  let noseToMouth := sq ((p30.x - p62.x) ^ 2 + (p30.y - p62.y) ^ 2)
  (eyeToNose / eyeDist, noseToMouth / eyeDist)

/-- The landmark-proportion distance (`face-clustering.ts` lines 46-61).
In the source, accessing `positions[36]`..`positions[62]` on a too-short
array throws and the `catch` sets the distance to 0; so the formula applies
exactly when both faces carry at least 63 landmark positions. -/
def landmarkDist (f1 f2 : FaceDetection K) : K :=
  match f1.landmarks, f2.landmarks with
  | some pos1, some pos2 =>
      if 62 < pos1.length ∧ 62 < pos2.length then
        let p1 := getProp sq pos1
        let p2 := getProp sq pos2
        (|p1.1 - p2.1| + |p1.2 - p2.2|) / 2
      else 0
  | _, _ => 0

/-- The bounding-box aspect-ratio distance (`face-clustering.ts` lines 42-44). -/
def shapeRatioDist (f1 f2 : FaceDetection K) : K :=
  |f1.box.height / f1.box.width - f2.box.height / f2.box.width|

/-- The shape sub-term exactly as weighted in the source: `Math.min(ratioDist, 1)`. -/
def shapeTerm (f1 f2 : FaceDetection K) : K :=
  min (shapeRatioDist f1 f2) 1

/-- The landmark sub-term exactly as weighted in the source: `Math.min(landmarkDist, 1)`. -/
def landmarkTerm (f1 f2 : FaceDetection K) : K :=
  min (landmarkDist sq f1 f2) 1

/-- The skin-tone sub-term exactly as weighted in the source (no clamping). -/
def toneTerm (f1 f2 : FaceDetection K) : K :=
  skinToneSimilarity sq f1.skinTone f2.skinTone

/-- `calculateWeightedDistance` from `src/lib/face-clustering.ts` lines 37-67:
`dist*0.60 + min(ratioDist,1)*0.05 + min(landmarkDist,1)*0.20 + toneDist*0.15`. -/
def calculateWeightedDistance (f1 f2 : FaceDetection K) : K :=
  faceDistance sq f1.descriptor f2.descriptor * 0.60 +
    shapeTerm f1 f2 * 0.05 + landmarkTerm sq f1 f2 * 0.20 + toneTerm sq f1 f2 * 0.15

end Metric

section Repair

variable {K : Type} [LinearOrderedField K]

/-- Placeholder face used as the (never hit) default of in-bounds JS array
indexing. -/
def dummyFace : FaceDetection K :=
  ⟨"", ⟨0, 0, 0, 0⟩, [], none, none, none, none⟩

/-- The index pairs `(i, j)`, `i < j < n`, in the order the source's nested
`for` loops visit them. -/
def pairList (n : Nat) : List (Nat × Nat) :=
  (List.range n).flatMap fun i => ((List.range n).filter fun j => i < j).map fun j => (i, j)

/-- Adjacency-list construction of `splitByCooccurrence`
(`face-clustering.ts` lines 233-243): an edge joins two faces iff they do
not share a photo id. -/
def buildAdj (faces : List (FaceDetection K × String)) : List (List Nat) :=
  (pairList faces.length).foldl
    (fun adj ij =>
      if (faces.getD ij.1 (dummyFace, "")).2 ≠ (faces.getD ij.2 (dummyFace, "")).2 then
        let a1 := adj.set ij.1 (adj.getD ij.1 [] ++ [ij.2])
        a1.set ij.2 (a1.getD ij.2 [] ++ [ij.1])
      else adj)
    (List.replicate faces.length [])

/-- The neighbour scan of the BFS inner loop (`face-clustering.ts` lines
259-264): unvisited neighbours are marked visited and appended to the queue.
Returns the new visited list and the enqueued neighbours. -/
def visitNeighbors (visited : List Nat) : List Nat → List Nat × List Nat
  | [] => (visited, [])
  | nb :: rest =>
      if nb ∈ visited then visitNeighbors visited rest
      else
        let vp := visitNeighbors (visited ++ [nb]) rest
        (vp.1, nb :: vp.2)

/-- The BFS worklist loop of `splitByCooccurrence` (`face-clustering.ts`
lines 251-265): pop the queue head, append it to the component, enqueue its
unvisited neighbours.  Returns the component (in pop order) and the final
visited list. -/
def bfs (adj : List (List Nat)) : List Nat → List Nat → List Nat → List Nat × List Nat
  | [], visited, acc => (acc, visited)
  | curr :: rest, visited, acc =>
      let vp := visitNeighbors visited (adj.getD curr [])
      bfs adj (rest ++ vp.2) vp.1 (acc ++ [curr])
  termination_by q v _ => 2 * ((adj.flatten.toFinset \ v.toFinset).card) + q.length
  decreasing_by
    have hsub : ∀ x ∈ adj.getD curr [], x ∈ adj.flatten.toFinset := by
      intro x hx
      refine List.mem_toFinset.2 ?_
      by_cases h : curr < adj.length
      · rw [List.getD_eq_getElem adj [] h] at hx
        exact List.mem_flatten.2 ⟨adj[curr], List.getElem_mem h, hx⟩
      · rw [List.getD_eq_default adj [] (le_of_not_lt h)] at hx
        cases hx
    have hcard : ∀ (l v' : List Nat), (∀ x ∈ l, x ∈ adj.flatten.toFinset) →
        (adj.flatten.toFinset \ (visitNeighbors v' l).1.toFinset).card
            + ((visitNeighbors v' l).2).length
          = (adj.flatten.toFinset \ v'.toFinset).card := by
      intro l
      induction l with
      | nil => simp [visitNeighbors]
      | cons nb rest ih =>
        intro v' hl
        by_cases h : nb ∈ v'
        · rw [visitNeighbors, if_pos h]
          exact ih v' fun x hx => hl x (List.mem_cons_of_mem _ hx)
        · rw [visitNeighbors, if_neg h]
          have hmem : nb ∈ adj.flatten.toFinset \ v'.toFinset :=
            Finset.mem_sdiff.2 ⟨hl nb (List.mem_cons_self _ _), by simpa using h⟩
          have hv' : (v' ++ [nb]).toFinset = insert nb v'.toFinset := by
            simp [List.toFinset_append]
            exact Finset.union_comm _ _
          have key : adj.flatten.toFinset \ (v' ++ [nb]).toFinset
              = (adj.flatten.toFinset \ v'.toFinset).erase nb := by
            rw [hv', Finset.sdiff_insert]
          have := ih (v' ++ [nb]) fun x hx => hl x (List.mem_cons_of_mem _ hx)
          rw [key, Finset.card_erase_of_mem hmem] at this
          have hpos : 0 < (adj.flatten.toFinset \ v'.toFinset).card :=
            Finset.card_pos.2 ⟨nb, hmem⟩
          simp only [List.length_cons]
          omega
    have := hcard (adj.getD curr []) visited hsub
    simp only [List.length_append, List.length_cons]
    omega

/-- One step of the outer component loop (`face-clustering.ts` lines
248-267): skip a visited index, otherwise mark it visited and run a BFS
from it, recording the resulting component. -/
def componentsStep (adj : List (List Nat)) (st : List Nat × List (List Nat)) (i : Nat) :
    List Nat × List (List Nat) :=
  if i ∈ st.1 then st
  else
    let r := bfs adj [i] (st.1 ++ [i]) []
    (r.2, st.2 ++ [r.1])

/-- The outer component loop of `splitByCooccurrence` (`face-clustering.ts`
lines 245-268): run a BFS from every not-yet-visited index.  Returns the
final visited list and the list of components (each a list of indices). -/
def componentsLoop (adj : List (List Nat)) (n : Nat) : List Nat × List (List Nat) :=
  (List.range n).foldl (componentsStep adj) ([], [])

/-- `splitByCooccurrence` from `src/lib/face-clustering.ts` lines 232-292:
connected components of the compatibility graph; a component whose
`photoCounts` scan finds some photo id twice (that is, whose photo-id list
is not duplicate-free) is shattered into singletons. -/
def splitByCooccurrence (faces : List (FaceDetection K × String)) :
    List (List (FaceDetection K × String)) :=
  let adj := buildAdj faces
  let comps := (componentsLoop adj faces.length).2
  let compsF := comps.map fun idxs => idxs.map fun i => faces.getD i (dummyFace, "")
  compsF.flatMap fun comp =>
    if (comp.map (·.2)).Nodup then [comp] else comp.map fun f => [f]

end Repair

section HAC

variable {K : Type} [LinearOrderedField K]

/-- Placeholder cluster node used as the (never hit) default of in-bounds JS
array indexing. -/
def dummyNode : ClusterNode K := ⟨"", [], []⟩

/-- The distance matrix: a JS `Map` keyed by the string `"i-j"` with
`i < j`, modelled as an insertion-ordered association list on `(i, j)`.
`Infinity` values are `⊤`. -/
abbrev DistMatrix (K : Type) := List ((Nat × Nat) × WithTop K)

/-- `Map.get`. -/
def mget : DistMatrix K → (Nat × Nat) → Option (WithTop K)
  | [], _ => none
  | e :: rest, k => if e.1 = k then some e.2 else mget rest k

/-- `Map.set`: overwrite in place if present, append otherwise. -/
def mset : DistMatrix K → (Nat × Nat) → WithTop K → DistMatrix K
  | [], k, v => [(k, v)]
  | e :: rest, k, v => if e.1 = k then (k, v) :: rest else e :: mset rest k v

/-- `Map.delete`. -/
def mdel : DistMatrix K → (Nat × Nat) → DistMatrix K
  | [], _ => []
  | e :: rest, k => if e.1 = k then rest else e :: mdel rest k

/-- The ordered key `idx1 < idx2 ? idx1-idx2 : idx2-idx1` used by the source
for every matrix access. -/
def okey (i j : Nat) : Nat × Nat := if i < j then (i, j) else (j, i)

/-- All position pairs `(l[i], l[j])` with `i < j`, in the scan order of the
source's double loop over `indices`. -/
def allPairs : List Nat → List (Nat × Nat)
  | [] => []
  | x :: xs => (xs.map fun y => (x, y)) ++ allPairs xs

/-- One step of the minimum scan (`face-clustering.ts` lines 124-130):
look the pair up under its ordered key; a recorded strictly smaller
distance becomes the new minimum and merge pair. -/
def minScanStep (m : DistMatrix K) (st : WithTop K × Option (Nat × Nat)) (p : Nat × Nat) :
    WithTop K × Option (Nat × Nat) :=
  match mget m (okey p.1 p.2) with
  | some d => if d < st.1 then (d, some p) else st
  | none => st

/-- The minimum scan of the HAC loop (`face-clustering.ts` lines 116-132):
over all active pairs, keep the first strictly smallest recorded distance.
Returns `(minDist, mergePair)`. -/
def findMinPair (m : DistMatrix K) (active : List Nat) : WithTop K × Option (Nat × Nat) :=
  (allPairs active).foldl (minScanStep m) (⊤, none)

/-- Matrix construction (`face-clustering.ts` lines 92-110): `⊤` for a
same-photo pair (compared via the first element of each photo-id set),
otherwise the weighted distance, recorded only below the threshold. -/
def buildMatrix (sq : K → K) (nodes : List (ClusterNode K)) (threshold : K) : DistMatrix K :=
  (pairList nodes.length).foldl
    (fun m ij =>
      let ni := nodes.getD ij.1 dummyNode
      let nj := nodes.getD ij.2 dummyNode
      if ni.photoIds.headD "" = nj.photoIds.headD "" then mset m ij ⊤
      else
        let d := calculateWeightedDistance sq (ni.faces.headD (dummyFace, "")).1
          (nj.faces.headD (dummyFace, "")).1
        if d < threshold then mset m ij (↑d) else m)
    []

/-- `for (const pid of c2.photoIds) c1.photoIds.add(pid)`. -/
def addAll (s : List String) : List String → List String
  | [] => s
  | p :: rest => addAll (if p ∈ s then s else s ++ [p]) rest

/-- The average-linkage distance update after a merge (`face-clustering.ts`
lines 163-186): recompute the mean pairwise distance from the merged node
`idx1` to every other active node; keep it below the threshold, drop it
otherwise. -/
def updateDistances (sq : K → K) (threshold : K) (nodes : List (ClusterNode K)) (idx1 : Nat)
    (active : List Nat) (m : DistMatrix K) : DistMatrix K :=
  active.foldl
    (fun m otherIdx =>
      if otherIdx = idx1 then m
      else
        let c1 := nodes.getD idx1 dummyNode
        let other := nodes.getD otherIdx dummyNode
        let total := (c1.faces.map fun f1 =>
          (other.faces.map fun f2 => calculateWeightedDistance sq f1.1 f2.1).sum).sum
        let count := c1.faces.length * other.faces.length
        let avgDist : WithTop K := if 0 < count then ((total / (count : K) : K) : WithTop K) else ⊤
        if avgDist < (threshold : WithTop K) then mset m (okey idx1 otherIdx) avgDist
        else mdel m (okey idx1 otherIdx))
    m

/-- The average-linkage distance (`avgDist`, `face-clustering.ts` lines
167-178) from the merged node `idx1` to `otherIdx`; `⊤` when either face
list is empty (the JS `count > 0 ? ... : Infinity` branch). -/
def avgD (sq : K → K) (nodes : List (ClusterNode K)) (idx1 otherIdx : Nat) : WithTop K :=
  let c1 := nodes.getD idx1 dummyNode
  let other := nodes.getD otherIdx dummyNode
  let total := (c1.faces.map fun f1 =>
    (other.faces.map fun f2 => calculateWeightedDistance sq f1.1 f2.1).sum).sum
  let count := c1.faces.length * other.faces.length
  if 0 < count then ((total / (count : K) : K) : WithTop K) else ⊤

/-- One step of `updateDistances`, named so that fold invariants can be
stated about it; definitionally the fold body of `updateDistances`. -/
def updStep (sq : K → K) (threshold : K) (nodes : List (ClusterNode K)) (idx1 : Nat)
    (m : DistMatrix K) (otherIdx : Nat) : DistMatrix K :=
  if otherIdx = idx1 then m
  else if avgD sq nodes idx1 otherIdx < (threshold : WithTop K) then
    mset m (okey idx1 otherIdx) (avgD sq nodes idx1 otherIdx)
  else mdel m (okey idx1 otherIdx)

/-- One step of `buildMatrix`, named so that fold invariants can be stated
about it; definitionally the fold body of `buildMatrix`. -/
def bmStep (sq : K → K) (nodes : List (ClusterNode K)) (threshold : K)
    (m : DistMatrix K) (ij : Nat × Nat) : DistMatrix K :=
  let ni := nodes.getD ij.1 dummyNode
  let nj := nodes.getD ij.2 dummyNode
  if ni.photoIds.headD "" = nj.photoIds.headD "" then mset m ij ⊤
  else
    let d := calculateWeightedDistance sq (ni.faces.headD (dummyFace, "")).1
      (nj.faces.headD (dummyFace, "")).1
    if d < threshold then mset m ij (↑d) else m

/-- The agglomerative merge loop of `clusterFaces` (`face-clustering.ts`
lines 112-187).  Each iteration finds the minimum recorded distance among
active pairs; on a photo-id conflict the entry is dropped and the scan is
retried, otherwise the second node is merged into the first and the
distances from the merged node are recomputed by average linkage.
Returns the final node array and active index set. -/
def hacLoop (sq : K → K) (threshold : K) (nodes : List (ClusterNode K)) (active : List Nat)
    (m : DistMatrix K) : List (ClusterNode K) × List Nat :=
  if active.length ≤ 1 then (nodes, active)
  else
    match hfm : (findMinPair m active).2 with
    | none => (nodes, active)
    | some p =>
        if (threshold : WithTop K) ≤ (findMinPair m active).1 then (nodes, active)
        else
          let c1 := nodes.getD p.1 dummyNode
          let c2 := nodes.getD p.2 dummyNode
          if c2.photoIds.any fun pid => decide (pid ∈ c1.photoIds) then
            hacLoop sq threshold nodes active (mdel m (okey p.1 p.2))
          else
            let nodes' := nodes.set p.1
              ⟨c1.id, c1.faces ++ c2.faces, addAll c1.photoIds c2.photoIds⟩
            let active' := active.erase p.2
            hacLoop sq threshold nodes' active' (updateDistances sq threshold nodes' p.1 active' m)
  termination_by (active.length, m.length)
  decreasing_by
  · refine Prod.Lex.right _ ?_
    have main : ∀ (ps : List (Nat × Nat)) (st : WithTop K × Option (Nat × Nat)),
        (∀ q, st.2 = some q → mget m (okey q.1 q.2) = some st.1) →
        ∀ q, (ps.foldl (minScanStep m) st).2 = some q →
          mget m (okey q.1 q.2) = some (ps.foldl (minScanStep m) st).1 := by
      intro ps
      induction ps with
      | nil => intro st hst q hq; exact hst q hq
      | cons r rs ih =>
        intro st hst q
        simp only [List.foldl_cons]
        cases hmg : mget m (okey r.1 r.2) with
        | none =>
          rw [show minScanStep m st r = st by unfold minScanStep; rw [hmg]]
          exact ih st hst q
        | some d =>
          rw [show minScanStep m st r = if d < st.1 then (d, some r) else st by
            unfold minScanStep; rw [hmg]]
          by_cases hlt : d < st.1
          · rw [if_pos hlt]
            refine ih (d, some r) ?_ q
            intro q hq
            cases hq
            exact hmg
          · rw [if_neg hlt]
            exact ih st hst q
    have hspec : mget m (okey p.1 p.2) = some (findMinPair m active).1 :=
      main (allPairs active) (⊤, none) (fun q hq => by cases hq) p hfm
    have hdel : ∀ (mm : DistMatrix K) (v : WithTop K), mget mm (okey p.1 p.2) = some v →
        (mdel mm (okey p.1 p.2)).length < mm.length := by
      intro mm
      induction mm with
      | nil => intro v hv; cases hv
      | cons e rest ih =>
        intro v hv
        by_cases he : e.1 = okey p.1 p.2
        · simp [mdel, he]
        · rw [mget, if_neg he] at hv
          simpa [mdel, he] using Nat.succ_lt_succ (ih v hv)
    exact hdel m _ hspec
  · refine Prod.Lex.left _ _ ?_
    have gen : ∀ (l : List Nat) (q : Nat × Nat), q ∈ allPairs l → q.2 ∈ l := by
      intro l
      induction l with
      | nil => intro q hq; cases hq
      | cons x xs ih =>
        intro q hq
        rw [allPairs, List.mem_append] at hq
        rcases hq with hq | hq
        · obtain ⟨y, hy, rfl⟩ := List.mem_map.1 hq
          exact List.mem_cons_of_mem _ hy
        · exact List.mem_cons_of_mem _ (ih q hq)
    have main : ∀ (ps : List (Nat × Nat)) (st : WithTop K × Option (Nat × Nat)),
        (∀ q, st.2 = some q → q.2 ∈ active) →
        (∀ q ∈ ps, q.2 ∈ active) →
        ∀ q, (ps.foldl (minScanStep m) st).2 = some q → q.2 ∈ active := by
      intro ps
      induction ps with
      | nil => intro st hst _ q hq; exact hst q hq
      | cons r rs ih =>
        intro st hst hps q
        simp only [List.foldl_cons]
        cases hmg : mget m (okey r.1 r.2) with
        | none =>
          rw [show minScanStep m st r = st by unfold minScanStep; rw [hmg]]
          exact ih st hst (fun q hq => hps q (List.mem_cons_of_mem _ hq)) q
        | some d =>
          rw [show minScanStep m st r = if d < st.1 then (d, some r) else st by
            unfold minScanStep; rw [hmg]]
          by_cases hlt : d < st.1
          · rw [if_pos hlt]
            refine ih (d, some r) ?_ (fun q hq => hps q (List.mem_cons_of_mem _ hq)) q
            intro q hq
            cases hq
            exact hps r (List.mem_cons_self _ _)
          · rw [if_neg hlt]
            exact ih st hst (fun q hq => hps q (List.mem_cons_of_mem _ hq)) q
    have hmem : p.2 ∈ active :=
      main (allPairs active) (⊤, none) (fun q hq => by cases hq)
        (fun q hq => gen active q hq) p hfm
    have h1 : (active.erase p.2).length = active.length - 1 :=
      List.length_erase_of_mem hmem
    have h2 : active.length ≠ 0 := List.ne_nil_of_mem hmem ∘ List.length_eq_zero.1
    omega

/-- Relation between the distance matrices of two runs of the HAC loop at
thresholds `th1 < th2` over identical node states: every entry of the
lower-threshold matrix occurs with the same value in the higher-threshold
matrix, and every extra entry of the higher-threshold matrix carries a
value in `[th1, th2)` (a distance dropped by the lower run's sparsity cut
but kept by the higher run's). -/
def MatrixRel (th1 th2 : K) (m1 m2 : DistMatrix K) : Prop :=
  ∀ k : Nat × Nat, mget m1 k = mget m2 k ∨
    (mget m1 k = none ∧ ∃ v, mget m2 k = some v ∧
      (th1 : WithTop K) ≤ v ∧ v < (th2 : WithTop K))

end HAC

section Pipeline

variable {K : Type} [LinearOrderedField K]

/-- Node initialisation (`face-clustering.ts` lines 77-88): one singleton
node per face, in map-entry then face order. -/
def initNodes (allFaces : List (String × List (FaceDetection K))) : List (ClusterNode K) :=
  allFaces.flatMap fun pf => pf.2.map fun face => ⟨face.id, [(face, pf.1)], [pf.1]⟩

/-- The flattened `(face, photoId)` sequence of the input map, in the same
order `initNodes` walks it (used to state the partition properties). -/
def inputPairs (allFaces : List (String × List (FaceDetection K))) :
    List (FaceDetection K × String) :=
  allFaces.flatMap fun pf => pf.2.map fun face => (face, pf.1)

/-- The final sub-cluster face lists produced by `clusterFaces`
(`face-clustering.ts` lines 190-199): co-occurrence splitting of every
active node, dropping empty sub-clusters. -/
def clusterFacesCore (sq : K → K) (allFaces : List (String × List (FaceDetection K)))
    (threshold : K) : List (List (FaceDetection K × String)) :=
  let nodes := initNodes allFaces
  let res := hacLoop sq threshold nodes (List.range nodes.length)
    (buildMatrix sq nodes threshold)
  res.2.flatMap fun idx =>
    (splitByCooccurrence (res.1.getD idx dummyNode).faces).filter fun sub =>
      decide (sub ≠ [])

/-- Stable insertion of one element into a list sorted descending by
`key`: entries with a strictly larger key stay in front; the element is
placed before the first entry whose key is not larger, so an earlier
element precedes later elements with the same key. -/
def insertDesc {α β : Type} [LinearOrder β] (key : α → β) (x : α) : List α → List α
  | [] => [x]
  | y :: ys => if key x < key y then y :: insertDesc key x ys else x :: y :: ys

/-- JS `Array.prototype.sort` with comparator `(a, b) => key(b) - key(a)`:
the stable descending sort by `key` (ES2019 sort is stable, and a stable
sort consistent with a total key comparator is unique, so stable insertion
sort models it exactly). -/
def sortByDesc {α β : Type} [LinearOrder β] (key : α → β) : List α → List α
  | [] => []
  | x :: xs => insertDesc key x (sortByDesc key xs)

/-- The ranking key of the summariser's quality sort: `(f.quality || 0)`. -/
def qualityKey (f : FaceDetection K) : K := f.quality.getD 0

/-- Modelled from the spec (§4.4, for comparison with `qualityKey`): the
ranking key the specification describes — `quality`, falling back to the
detector `score` when quality is absent. -/
def qualityKeySpec (f : FaceDetection K) : K :=
  match f.quality with
  | some q => q
  | none => f.score.getD 0

/-- Formatting of one validated sub-cluster (`face-clustering.ts` lines
201-220): stable sort by quality descending, top-5 anchors, best face as
representative, mean quality, distinct-photo count. -/
def summarize (sub : List (FaceDetection K × String)) : FaceCluster K :=
  let faces := sub.map (·.1)
  let sortedByQuality := sortByDesc qualityKey faces
  let anchors := (sortedByQuality.take 5).map (·.descriptor)
  let bestFace := sortedByQuality.headD dummyFace
  let clusterQuality := (sortedByQuality.foldl (fun acc f => acc + qualityKey f) 0) /
    (faces.length : K)
  let uniquePhotoCount := (sub.map (·.2)).dedup.length
  { id := "cluster-" ++ toString uniquePhotoCount ++ "-" ++ bestFace.id.take 8
    faceIds := faces.map (·.id)
    anchors := anchors
    skinTone := bestFace.skinTone
    photoCount := uniquePhotoCount
    representativeFaceId := bestFace.id
    qualityScore := clusterQuality }

/-- `clusterFaces` from `src/lib/face-clustering.ts` lines 73-225: nodes,
matrix, HAC loop, co-occurrence repair, summarisation, and the final stable
sort by `photoCount` descending.  (The source's early return on zero nodes
produces the same empty list this definition does.) -/
def clusterFaces (sq : K → K) (allFaces : List (String × List (FaceDetection K)))
    (threshold : K) : List (FaceCluster K) :=
  sortByDesc (fun c => c.photoCount) ((clusterFacesCore sq allFaces threshold).map summarize)

/-- The synthetic comparison object `{ descriptor: anchor } as any` built by
`assignFaceToCluster`: it carries only a descriptor; its `box` (and every
other field) is `undefined`. -/
structure AnchorOnlyFace (K : Type) where
  descriptor : List K

/-- `calculateWeightedDistance` applied to the synthetic anchor face
(`face-clustering.ts` line 307).  The embedding distance is computed first;
the next statement reads `face2.box.height`, and `face2.box` is `undefined`,
so the call throws a `TypeError` — modelled as `Except.error`. -/
def calculateWeightedDistanceAnchor (sq : K → K) (face1 : FaceDetection K)
    (face2 : AnchorOnlyFace K) : Except Unit K :=
  let _dist := faceDistance sq face1.descriptor face2.descriptor
  -- `const ratio2 = face2.box.height / face2.box.width` with `face2.box
  -- === undefined` throws before any further term is evaluated.
  Except.error ()

/-- One step of the anchor-distance accumulation
(`face-clustering.ts` lines 306-308). -/
def anchorAvgStep (sq : K → K) (face : FaceDetection K) (acc : K) (anchor : List K) :
    Except Unit K := do
  let d ← calculateWeightedDistanceAnchor sq face ⟨anchor⟩
  pure (acc + d)

/-- One cluster of the `assignFaceToCluster` scan (`face-clustering.ts`
lines 304-316): average the anchor distances and keep the closest cluster
below the threshold.  `0/0` on an empty anchor list is `NaN` in JS, whose
comparison with the threshold is false, modelled by skipping the
comparison when the anchor count is zero. -/
def assignScanStep (sq : K → K) (face : FaceDetection K) (threshold : K)
    (best : Option (String × K)) (cluster : FaceCluster K) :
    Except Unit (Option (String × K)) := do
  let totalDist ← cluster.anchors.foldlM (anchorAvgStep sq face) 0
  if _h : cluster.anchors.length = 0 then
    pure best
  else
    let avgDist := totalDist / (cluster.anchors.length : K)
    if avgDist < threshold then
      match best with
      | some b => if avgDist < b.2 then pure (some (cluster.id, avgDist)) else pure best
      | none => pure (some (cluster.id, avgDist))
    else pure best

/-- `assignFaceToCluster` from `src/lib/face-clustering.ts` lines 297-319.
A thrown `TypeError` propagates out of the whole call. -/
def assignFaceToCluster (sq : K → K) (face : FaceDetection K) (clusters : List (FaceCluster K))
    (threshold : K) : Except Unit (Option String) := do
  let best ← clusters.foldlM (assignScanStep sq face threshold) none
  pure (best.map (·.1))

end Pipeline

section NameResolution

/-- Generic insertion-ordered association-list get (JS `Map.get`). -/
def aget {α β : Type} [DecidableEq α] : List (α × β) → α → Option β
  | [], _ => none
  | e :: rest, k => if e.1 = k then some e.2 else aget rest k

/-- Generic insertion-ordered association-list set (JS `Map.set`): overwrite
in place if present, append otherwise. -/
def aset {α β : Type} [DecidableEq α] : List (α × β) → α → β → List (α × β)
  | [], k, v => [(k, v)]
  | e :: rest, k, v => if e.1 = k then (k, v) :: rest else e :: aset rest k v

/-- The two fields of the persisted `DetectedPerson` record that the
name-resolution step of `updatePeopleClusters` reads. -/
structure DetectedPersonN where
  name : String
  faceIds : List String

/-- Step 1 of `updatePeopleClusters` (`face-processing.ts` lines 120-128):
map every face id of every previously persisted person to that person's
name, skipping auto-generated `Person N` names. -/
def buildFaceToNameMap (people : List DetectedPersonN) : List (String × String) :=
  people.foldl
    (fun m p =>
      if p.name.startsWith "Person " then m
      else p.faceIds.foldl (fun m fid => aset m fid p.name) m)
    []

/-- The vote tally of `updatePeopleClusters` (`face-processing.ts` lines
141-145): for every member face id present in the old name map, increment
that name's count (`Map` iteration keeps first-seen name order). -/
def tallyNames (m : List (String × String)) (faceIds : List String) : List (String × Nat) :=
  faceIds.foldl
    (fun counts fid =>
      match aget m fid with
      | some name => aset counts name ((aget counts name).getD 0 + 1)
      | none => counts)
    []

/-- The argmax scan of `updatePeopleClusters` (`face-processing.ts` lines
147-155): start from the auto-generated `Person (i+1)` with count 0 and
take any strictly larger vote count. -/
def resolveName (m : List (String × String)) (faceIds : List String) (i : Nat) : String :=
  ((tallyNames m faceIds).foldl
    (fun best nc => if best.2 < nc.2 then nc else best)
    ("Person " ++ toString (i + 1), 0)).1

/-- Name resolution over the whole new cluster list (`face-processing.ts`
lines 137-155): clusters are indexed in the sorted order `clusterFaces`
returned them. -/
def resolveClusterNames {K : Type} (people : List DetectedPersonN)
    (clusters : List (FaceCluster K)) : List String :=
  clusters.mapIdx fun i c => resolveName (buildFaceToNameMap people) c.faceIds i

end NameResolution

section StateMachine

/-- `ProcessingState` from `src/lib/face-processing.ts` line 14. -/
inductive ProcessingState
  | idle
  | detecting
  | clustering
  deriving DecidableEq, Repr

/-- The observable module state of `face-processing.ts`: `currentState`
(line 15) and the sequence of states each subscriber callback has been
invoked with (`subscribers.forEach(cb => cb(state))`, line 32). -/
structure OrchestratorState where
  currentState : ProcessingState
  notified : List ProcessingState
  deriving DecidableEq

/-- `setState` from `src/lib/face-processing.ts` lines 28-33: skip if
unchanged, otherwise update and notify every subscriber. -/
def setState (s : ProcessingState) (st : OrchestratorState) : OrchestratorState :=
  if st.currentState = s then st else ⟨s, st.notified ++ [s]⟩

/-- The operations of `face-processing.ts` that a processing run performs,
abstracted to their effect on the observable state-machine state.  Only
`setStateOp` touches `currentState`/subscribers; every other operation
(detection, persistence, clustering, thumbnails) leaves them unchanged. -/
inductive OrchestratorOp
  | detectFacesOp
  | savePhotoOp
  | clearReclusterTimerOp
  | scheduleReclusterOp
  | getAllPhotosOp
  | getAllPeopleOp
  | clusterFacesOp
  | extractThumbnailOp
  | dbClearOp
  | dbPutOp
  | setStateOp (s : ProcessingState)

/-- Effect of one operation on the observable state. -/
def runOp : OrchestratorOp → OrchestratorState → OrchestratorState
  | .setStateOp s => setState s
  | _ => id

/-- Effect of a sequence of operations. -/
def runOps (ops : List OrchestratorOp) (st : OrchestratorState) : OrchestratorState :=
  ops.foldl (fun st op => runOp op st) st

/-- The operations `processFacesInPhoto` (`face-processing.ts` lines 41-71)
performs on its successful path, in source order: `detectFaces`,
`savePhoto`, `clearTimeout(reclusterTimeout)`, `setTimeout(...)`.  The
function contains no `setState` call. -/
def processFacesInPhotoOps : List OrchestratorOp :=
  [.detectFacesOp, .savePhotoOp, .clearReclusterTimerOp, .scheduleReclusterOp]

/-- The operations the debounced `updatePeopleClusters` run
(`face-processing.ts` lines 84-210) performs on its successful path, in
source order: `getAllPhotos`, `getAllPeople`, `clusterFaces`, thumbnail
extraction, transactional clear and puts.  The function contains no
`setState` call. -/
def updatePeopleClustersOps : List OrchestratorOp :=
  [.getAllPhotosOp, .getAllPeopleOp, .clusterFacesOp, .extractThumbnailOp,
    .dbClearOp, .dbPutOp]

end StateMachine

/-! ## Supporting lemmas -/

section RepairLemmas

variable {K : Type} [LinearOrderedField K]

theorem visitNeighbors_fst (l : List Nat) :
    ∀ v, (visitNeighbors v l).1 = v ++ (visitNeighbors v l).2 := by
  induction l with
  | nil => simp [visitNeighbors]
  | cons nb rest ih =>
    intro v
    by_cases h : nb ∈ v
    · simp [visitNeighbors, h, ih]
    · simp only [visitNeighbors, if_neg h, ih (v ++ [nb])]
      simp

theorem visitNeighbors_pushed_mem (l : List Nat) :
    ∀ v, ∀ x ∈ (visitNeighbors v l).2, x ∈ l := by
  induction l with
  | nil => simp [visitNeighbors]
  | cons nb rest ih =>
    intro v x hx
    by_cases h : nb ∈ v
    · rw [visitNeighbors, if_pos h] at hx
      exact List.mem_cons_of_mem _ (ih v x hx)
    · rw [visitNeighbors, if_neg h] at hx
      rcases List.mem_cons.1 hx with h1 | h1
      · exact h1 ▸ List.mem_cons_self _ _
      · exact List.mem_cons_of_mem _ (ih (v ++ [nb]) x h1)

theorem visitNeighbors_pushed_fresh (l : List Nat) :
    ∀ v, (∀ x ∈ (visitNeighbors v l).2, x ∉ v) ∧ ((visitNeighbors v l).2).Nodup := by
  induction l with
  | nil => simp [visitNeighbors]
  | cons nb rest ih =>
    intro v
    by_cases h : nb ∈ v
    · rw [visitNeighbors, if_pos h]; exact ih v
    · rw [visitNeighbors, if_neg h]
      obtain ⟨ihf, ihn⟩ := ih (v ++ [nb])
      constructor
      · intro x hx
        rcases List.mem_cons.1 hx with h1 | h1
        · exact h1 ▸ h
        · intro hv; exact ihf x h1 (List.mem_append_left _ hv)
      · refine List.nodup_cons.2 ⟨fun hmem => ?_, ihn⟩
        exact ihf nb hmem (List.mem_append_right _ (List.mem_singleton_self _))

theorem visitNeighbors_all_old {l v : List Nat} (h : ∀ x ∈ l, x ∈ v) :
    visitNeighbors v l = (v, []) := by
  induction l with
  | nil => rfl
  | cons nb rest ih =>
    rw [visitNeighbors, if_pos (h nb (List.mem_cons_self _ _))]
    exact ih fun x hx => h x (List.mem_cons_of_mem _ hx)

theorem visitNeighbors_all_new {l v : List Nat} (hd : l.Nodup) (h : ∀ x ∈ l, x ∉ v) :
    visitNeighbors v l = (v ++ l, l) := by
  induction l generalizing v with
  | nil => simp [visitNeighbors]
  | cons nb rest ih =>
    rw [visitNeighbors, if_neg (h nb (List.mem_cons_self _ _))]
    have hrest : ∀ x ∈ rest, x ∉ v ++ [nb] := by
      intro x hx
      rw [List.mem_append]
      rintro (hv | hb)
      · exact h x (List.mem_cons_of_mem _ hx) hv
      · rw [List.mem_singleton] at hb
        exact (List.nodup_cons.1 hd).1 (hb ▸ hx)
    rw [ih (List.nodup_cons.1 hd).2 hrest]
    simp

theorem mem_getD_flatten (adj : List (List Nat)) (i : Nat) :
    ∀ x ∈ adj.getD i [], x ∈ adj.flatten := by
  intro x hx
  by_cases h : i < adj.length
  · rw [List.getD_eq_getElem adj [] h] at hx
    exact List.mem_flatten.2 ⟨adj[i], List.getElem_mem h, hx⟩
  · rw [List.getD_eq_default adj [] (le_of_not_lt h)] at hx
    cases hx

theorem getD_set_self {α : Type} {l : List α} {i : Nat} (v d : α) (h : i < l.length) :
    (l.set i v).getD i d = v := by
  rw [List.getD_eq_getElem _ _ (by simpa using h)]
  exact List.getElem_set_self _

theorem getD_set_ne {α : Type} {l : List α} {i j : Nat} (v d : α) (h : i ≠ j) :
    (l.set j v).getD i d = l.getD i d := by
  by_cases hi : i < l.length
  · rw [List.getD_eq_getElem _ _ (by simpa using hi), List.getD_eq_getElem _ _ hi]
    exact List.getElem_set_ne (fun hji => h hji.symm) _
  · rw [List.getD_eq_default _ _ (by simpa using le_of_not_lt hi),
      List.getD_eq_default _ _ (le_of_not_lt hi)]

theorem mem_pairList {n : Nat} {p : Nat × Nat} :
    p ∈ pairList n ↔ p.1 < p.2 ∧ p.2 < n := by
  cases p with
  | mk a b =>
    simp only [pairList, List.mem_flatMap, List.mem_map, List.mem_filter, List.mem_range]
    constructor
    · rintro ⟨i, hi, j, ⟨hj, hij⟩, hpq⟩
      cases hpq
      exact ⟨by simpa using hij, hj⟩
    · rintro ⟨hab, hb⟩
      exact ⟨a, lt_trans hab hb, b, ⟨hb, by simpa using hab⟩, rfl⟩

theorem buildAdj_length (faces : List (FaceDetection K × String)) :
    (buildAdj faces).length = faces.length := by
  rw [buildAdj]
  generalize pairList faces.length = ps
  induction ps using List.reverseRecOn with
  | nil => simp
  | append_singleton rs r ih =>
    rw [List.foldl_append, List.foldl_cons, List.foldl_nil]
    split
    · simpa using ih
    · exact ih

theorem buildAdj_flatten_lt (faces : List (FaceDetection K × String)) :
    ∀ x ∈ (buildAdj faces).flatten, x < faces.length := by
  rw [buildAdj]
  have main : ∀ (ps : List (Nat × Nat)) (adj0 : List (List Nat)),
      (∀ q ∈ ps, q.1 < faces.length ∧ q.2 < faces.length) →
      (∀ x ∈ adj0.flatten, x < faces.length) →
      ∀ x ∈ (ps.foldl (fun adj ij =>
          if (faces.getD ij.1 (dummyFace, "")).2 ≠ (faces.getD ij.2 (dummyFace, "")).2 then
            let a1 := adj.set ij.1 (adj.getD ij.1 [] ++ [ij.2])
            a1.set ij.2 (a1.getD ij.2 [] ++ [ij.1])
          else adj) adj0).flatten, x < faces.length := by
    intro ps
    induction ps with
    | nil => intro adj0 _ h0; exact h0
    | cons r rs ih =>
      intro adj0 hps h0
      rw [List.foldl_cons]
      refine ih _ (fun q hq => hps q (List.mem_cons_of_mem _ hq)) ?_
      split
      · intro x hx
        have hset : ∀ (l : List (List Nat)) (j : Nat) (e : List Nat),
            (∀ y ∈ l.flatten, y < faces.length) → (∀ y ∈ e, y < faces.length) →
            ∀ y ∈ (l.set j e).flatten, y < faces.length := by
          intro l j e hl he y hy
          obtain ⟨sub, hsub, hysub⟩ := List.mem_flatten.1 hy
          rcases List.mem_or_eq_of_mem_set hsub with h | h
          · exact hl y (List.mem_flatten.2 ⟨sub, h, hysub⟩)
          · exact he y (h ▸ hysub)
        have hr := hps r (List.mem_cons_self _ _)
        refine hset _ _ _ (hset _ _ _ h0 ?_) ?_ x hx
        · intro y hy
          rcases List.mem_append.1 hy with h | h
          · exact h0 y (mem_getD_flatten _ _ y h)
          · rw [List.mem_singleton] at h
            exact h ▸ hr.2
        · intro y hy
          rcases List.mem_append.1 hy with h | h
          · refine hset _ _ _ h0 ?_ y (mem_getD_flatten _ _ y h)
            intro z hz
            rcases List.mem_append.1 hz with h' | h'
            · exact h0 z (mem_getD_flatten _ _ z h')
            · rw [List.mem_singleton] at h'
              exact h' ▸ hr.2
          · rw [List.mem_singleton] at h
            exact h ▸ hr.1
      · exact h0
  refine main _ _ (fun q hq => ?_) (by simp)
  have := mem_pairList.1 hq
  exact ⟨lt_trans this.1 this.2, this.2⟩

end RepairLemmas

section BfsLemmas

theorem bfs_spec (adj : List (List Nat)) :
    ∀ (q v a : List Nat), (∀ x ∈ q, x ∈ v) → (∀ x ∈ a, x ∈ v) → (a ++ q).Nodup →
      ∃ d : List Nat,
        (bfs adj q v a).2 = v ++ d ∧
        (bfs adj q v a).1.Perm (a ++ q ++ d) ∧
        (a ++ q ++ d).Nodup ∧ (∀ x ∈ d, x ∉ v) ∧ (∀ x ∈ d, x ∈ adj.flatten) := by
  intro q v a
  induction q, v, a using bfs.induct adj with
  | case1 v a =>
    intro _ _ hnd
    rw [List.append_nil] at hnd
    exact ⟨[], by simp [bfs], by simp [bfs], by simpa using hnd, by simp, by simp⟩
  | case2 curr rest v a vp ih =>
    intro hq hv hnd
    have hfst : vp.1 = v ++ vp.2 := visitNeighbors_fst _ v
    have hfresh := visitNeighbors_pushed_fresh (adj.getD curr []) v
    have hpm : ∀ x ∈ vp.2, x ∈ adj.getD curr [] :=
      visitNeighbors_pushed_mem (adj.getD curr []) v
    have h1 : ∀ x ∈ rest ++ vp.2, x ∈ vp.1 := by
      intro x hx
      rw [hfst, List.mem_append]
      rcases List.mem_append.1 hx with h | h
      · exact Or.inl (hq x (List.mem_cons_of_mem _ h))
      · exact Or.inr h
    have h2 : ∀ x ∈ a ++ [curr], x ∈ vp.1 := by
      intro x hx
      rw [hfst, List.mem_append]
      rcases List.mem_append.1 hx with h | h
      · exact Or.inl (hv x h)
      · rw [List.mem_singleton] at h
        exact Or.inl (hq x (h ▸ List.mem_cons_self _ _))
    have h3 : ((a ++ [curr]) ++ (rest ++ vp.2)).Nodup := by
      have heq : (a ++ [curr]) ++ (rest ++ vp.2) = (a ++ curr :: rest) ++ vp.2 := by
        simp
      rw [heq, List.nodup_append]
      refine ⟨hnd, hfresh.2, fun x hx hx2 => ?_⟩
      have hxv : x ∈ v := by
        rcases List.mem_append.1 hx with h | h
        · exact hv x h
        · exact hq x h
      exact hfresh.1 x hx2 hxv
    obtain ⟨d', e1, e2, e3, e4, e5⟩ := ih h1 h2 h3
    refine ⟨vp.2 ++ d', ?_, ?_, ?_, ?_, ?_⟩
    · rw [bfs]
      show (bfs adj (rest ++ vp.2) vp.1 (a ++ [curr])).2 = _
      rw [e1, hfst, List.append_assoc]
    · rw [bfs]
      show (bfs adj (rest ++ vp.2) vp.1 (a ++ [curr])).1.Perm _
      refine e2.trans (List.Perm.of_eq ?_)
      simp
    · have heq : a ++ curr :: rest ++ (vp.2 ++ d')
          = (a ++ [curr]) ++ (rest ++ vp.2) ++ d' := by simp
      rw [heq]
      exact e3
    · intro x hx
      rcases List.mem_append.1 hx with h | h
      · exact hfresh.1 x h
      · intro hxv
        exact e4 x h (hfst ▸ List.mem_append_left _ hxv)
    · intro x hx
      rcases List.mem_append.1 hx with h | h
      · exact mem_getD_flatten adj curr x (hpm x h)
      · exact e5 x h


theorem componentsLoop_spec (adj : List (List Nat)) (n : Nat) :
    ((componentsLoop adj n).2.flatten).Perm (componentsLoop adj n).1 ∧
    (componentsLoop adj n).1.Nodup ∧
    (∀ x ∈ (componentsLoop adj n).1, x < n ∨ x ∈ adj.flatten) ∧
    (∀ i, i < n → i ∈ (componentsLoop adj n).1) := by
  have main : ∀ (idxs : List Nat) (st : List Nat × List (List Nat)),
      st.2.flatten.Perm st.1 → st.1.Nodup →
      (∀ x ∈ st.1, x < n ∨ x ∈ adj.flatten) →
      (∀ i ∈ idxs, i < n) →
      ((idxs.foldl (componentsStep adj) st).2.flatten).Perm
          (idxs.foldl (componentsStep adj) st).1 ∧
        (idxs.foldl (componentsStep adj) st).1.Nodup ∧
        (∀ x ∈ (idxs.foldl (componentsStep adj) st).1, x < n ∨ x ∈ adj.flatten) ∧
        (∀ x ∈ st.1, x ∈ (idxs.foldl (componentsStep adj) st).1) ∧
        (∀ i ∈ idxs, i ∈ (idxs.foldl (componentsStep adj) st).1) := by
    intro idxs
    induction idxs with
    | nil =>
      intro st h1 h2 h3 _
      exact ⟨h1, h2, h3, fun x hx => hx, by simp⟩
    | cons i rest ih =>
      intro st h1 h2 h3 h4
      rw [List.foldl_cons]
      by_cases hi : i ∈ st.1
      · rw [show componentsStep adj st i = st by rw [componentsStep, if_pos hi]]
        obtain ⟨g1, g2, g3, g4, g5⟩ := ih st h1 h2 h3
          (fun j hj => h4 j (List.mem_cons_of_mem _ hj))
        refine ⟨g1, g2, g3, g4, fun j hj => ?_⟩
        rcases List.mem_cons.1 hj with h | h
        · exact h ▸ g4 i hi
        · exact g5 j h
      · obtain ⟨d, e1, e2, e3, e4, e5⟩ := bfs_spec adj [i] (st.1 ++ [i]) []
          (by intro x hx
              rw [List.mem_singleton] at hx
              exact hx ▸ List.mem_append_right _ (List.mem_singleton_self _))
          (by intro x hx; cases hx)
          (by simpa using (List.nodup_singleton i))
        rw [show componentsStep adj st i
            = ((bfs adj [i] (st.1 ++ [i]) []).2, st.2 ++ [(bfs adj [i] (st.1 ++ [i]) []).1])
          by rw [componentsStep, if_neg hi]]
        set r := bfs adj [i] (st.1 ++ [i]) [] with hr
        have e2' : r.1.Perm (i :: d) := by simpa using e2
        have e3' : i ∉ d ∧ d.Nodup := by simpa using e3
        have hperm : (st.2 ++ [r.1]).flatten.Perm r.2 := by
          rw [List.flatten_append, e1]
          simp only [List.flatten_cons, List.flatten_nil, List.append_nil]
          have htmp : (st.2.flatten ++ r.1).Perm (st.1 ++ (i :: d)) :=
            List.Perm.append h1 e2'
          exact htmp.trans (List.Perm.of_eq (by simp))
        have hnd : r.2.Nodup := by
          rw [e1]
          rw [List.nodup_append]
          refine ⟨List.nodup_append.2 ⟨h2, List.nodup_singleton i, ?_⟩, ?_, ?_⟩
          · intro x hx hx2
            rw [List.mem_singleton] at hx2
            exact hi (hx2 ▸ hx)
          · exact e3'.2
          · exact fun x hx hxd => e4 x hxd hx
        have hP : ∀ x ∈ r.2, x < n ∨ x ∈ adj.flatten := by
          rw [e1]
          intro x hx
          rcases List.mem_append.1 hx with h | h
          · rcases List.mem_append.1 h with h' | h'
            · exact h3 x h'
            · rw [List.mem_singleton] at h'
              exact Or.inl (h' ▸ h4 i (List.mem_cons_self _ _))
          · exact Or.inr (e5 x h)
        obtain ⟨g1, g2, g3, g4, g5⟩ := ih (r.2, st.2 ++ [r.1]) hperm hnd hP
          (fun j hj => h4 j (List.mem_cons_of_mem _ hj))
        refine ⟨g1, g2, g3, ?_, ?_⟩
        · intro x hx
          refine g4 x ?_
          rw [e1]
          exact List.mem_append_left _ (List.mem_append_left _ hx)
        · intro j hj
          rcases List.mem_cons.1 hj with h | h
          · refine h ▸ g4 i ?_
            rw [e1]
            exact List.mem_append_left _ (List.mem_append_right _ (List.mem_singleton_self _))
          · exact g5 j h
  obtain ⟨g1, g2, g3, g4, g5⟩ := main (List.range n) ([], [])
    (by simp) (by simp) (by simp) (by simp)
  exact ⟨g1, g2, g3, fun i hi => g5 i (List.mem_range.2 hi)⟩

end BfsLemmas

section SplitLemmas

variable {K : Type} [LinearOrderedField K]

theorem flatten_map_singleton {α : Type} (l : List α) :
    (l.map fun f => [f]).flatten = l := by
  induction l with
  | nil => rfl
  | cons x xs ih => simp [ih]

theorem map_getD_range {α : Type} (l : List α) (d : α) :
    (List.range l.length).map (fun i => l.getD i d) = l := by
  induction l with
  | nil => rfl
  | cons x xs ih =>
    rw [List.length_cons, List.range_succ_eq_map, List.map_cons, List.map_map]
    have : ((fun i => (x :: xs).getD i d) ∘ Nat.succ) = fun i => xs.getD i d := by
      funext i
      rfl
    rw [this, ih]
    rfl

/-- Every sub-cluster `splitByCooccurrence` returns has pairwise-distinct
photo ids: validated components are kept only when duplicate-free, and
shattered singletons are trivially duplicate-free. -/
theorem splitByCooccurrence_nodup (faces : List (FaceDetection K × String)) :
    ∀ sub ∈ splitByCooccurrence faces, (sub.map (·.2)).Nodup := by
  intro sub hsub
  rw [splitByCooccurrence] at hsub
  obtain ⟨comp, _, hmem⟩ := List.mem_flatMap.1 hsub
  by_cases hnd : (comp.map (·.2)).Nodup
  · rw [if_pos hnd, List.mem_singleton] at hmem
    exact hmem ▸ hnd
  · rw [if_neg hnd] at hmem
    obtain ⟨f, _, rfl⟩ := List.mem_map.1 hmem
    simp

/-- The faces of the sub-clusters `splitByCooccurrence` returns are a
permutation of the input faces: components partition the index range, and
shattering a component preserves its members. -/
theorem splitByCooccurrence_flatten_perm (faces : List (FaceDetection K × String)) :
    (splitByCooccurrence faces).flatten.Perm faces := by
  rw [splitByCooccurrence]
  have step1 : ∀ (comps : List (List (FaceDetection K × String))),
      (comps.flatMap fun comp =>
        if (comp.map (·.2)).Nodup then [comp] else comp.map fun f => [f]).flatten
      = comps.flatten := by
    intro comps
    induction comps with
    | nil => rfl
    | cons c cs ih =>
      rw [List.flatMap_cons, List.flatten_append, ih]
      by_cases hnd : (c.map (·.2)).Nodup
      · rw [if_pos hnd]
        simp
      · rw [if_neg hnd]
        rw [flatten_map_singleton]
        rfl
  rw [step1]
  obtain ⟨g1, g2, g3, _⟩ := componentsLoop_spec (buildAdj faces) faces.length
  have hlt : ∀ x ∈ (componentsLoop (buildAdj faces) faces.length).1, x < faces.length := by
    intro x hx
    rcases g3 x hx with h | h
    · exact h
    · exact buildAdj_flatten_lt faces x h
  have hvperm : (componentsLoop (buildAdj faces) faces.length).1.Perm
      (List.range faces.length) := by
    rw [List.perm_ext_iff_of_nodup g2 (List.nodup_range _)]
    intro a
    constructor
    · intro ha
      exact List.mem_range.2 (hlt a ha)
    · intro ha
      exact (componentsLoop_spec (buildAdj faces) faces.length).2.2.2 a (List.mem_range.1 ha)
  have hmap : ((componentsLoop (buildAdj faces) faces.length).2.map
        fun idxs => idxs.map fun i => faces.getD i (dummyFace, "")).flatten
      = ((componentsLoop (buildAdj faces) faces.length).2.flatten.map
        fun i => faces.getD i (dummyFace, "")) := by
    rw [List.map_flatten]
  rw [hmap]
  have := (g1.map fun i => faces.getD i (dummyFace, "")).trans
    (hvperm.map fun i => faces.getD i (dummyFace, ""))
  rw [map_getD_range] at this
  exact this

end SplitLemmas

section SplitValid

variable {K : Type} [LinearOrderedField K]

theorem photoAt_ne {faces : List (FaceDetection K × String)}
    (hnd : (faces.map (·.2)).Nodup) {i j : Nat} (hi : i < faces.length)
    (hj : j < faces.length) (hij : i ≠ j) :
    (faces.getD i (dummyFace, "")).2 ≠ (faces.getD j (dummyFace, "")).2 := by
  intro he
  rw [List.getD_eq_getElem _ _ hi, List.getD_eq_getElem _ _ hj] at he
  have hi' : i < (faces.map (·.2)).length := by simpa using hi
  have hj' : j < (faces.map (·.2)).length := by simpa using hj
  have : (faces.map (·.2))[i] = (faces.map (·.2))[j] := by
    rw [List.getElem_map, List.getElem_map]
    exact he
  exact hij ((List.Nodup.getElem_inj_iff hnd).1 this)

theorem adjFold_skip_zero (faces : List (FaceDetection K × String)) :
    ∀ (ps : List (Nat × Nat)) (adj0 : List (List Nat)),
      (∀ p ∈ ps, p.1 ≠ 0 ∧ p.2 ≠ 0) →
      ((ps.foldl (fun adj ij =>
          if (faces.getD ij.1 (dummyFace, "")).2 ≠ (faces.getD ij.2 (dummyFace, "")).2 then
            let a1 := adj.set ij.1 (adj.getD ij.1 [] ++ [ij.2])
            a1.set ij.2 (a1.getD ij.2 [] ++ [ij.1])
          else adj) adj0).getD 0 []) = adj0.getD 0 [] := by
  intro ps
  induction ps with
  | nil => intro adj0 _; rfl
  | cons r rs ih =>
    intro adj0 hps
    rw [List.foldl_cons]
    rw [ih _ fun p hp => hps p (List.mem_cons_of_mem _ hp)]
    have hr := hps r (List.mem_cons_self _ _)
    split
    · rw [getD_set_ne _ _ (fun h => hr.2 h.symm), getD_set_ne _ _ (fun h => hr.1 h.symm)]
    · rfl

theorem adjFold_block_zero (faces : List (FaceDetection K × String)) :
    ∀ (bs : List Nat) (adj0 : List (List Nat)),
      adj0.length = faces.length → 0 < faces.length →
      (∀ j ∈ bs, j ≠ 0 ∧
        (faces.getD 0 (dummyFace, "")).2 ≠ (faces.getD j (dummyFace, "")).2) →
      (((bs.map fun j => ((0 : Nat), j)).foldl (fun adj ij =>
          if (faces.getD ij.1 (dummyFace, "")).2 ≠ (faces.getD ij.2 (dummyFace, "")).2 then
            let a1 := adj.set ij.1 (adj.getD ij.1 [] ++ [ij.2])
            a1.set ij.2 (a1.getD ij.2 [] ++ [ij.1])
          else adj) adj0).getD 0 []) = adj0.getD 0 [] ++ bs ∧
      ((bs.map fun j => ((0 : Nat), j)).foldl (fun adj ij =>
          if (faces.getD ij.1 (dummyFace, "")).2 ≠ (faces.getD ij.2 (dummyFace, "")).2 then
            let a1 := adj.set ij.1 (adj.getD ij.1 [] ++ [ij.2])
            a1.set ij.2 (a1.getD ij.2 [] ++ [ij.1])
          else adj) adj0).length = faces.length := by
  intro bs
  induction bs with
  | nil =>
    intro adj0 hlen _ _
    exact ⟨by simp, hlen⟩
  | cons j rest ih =>
    intro adj0 hlen hpos hjs
    have hj := hjs j (List.mem_cons_self _ _)
    rw [List.map_cons, List.foldl_cons]
    rw [if_pos hj.2]
    have hlen1 : ((adj0.set 0 (adj0.getD 0 [] ++ [j])).set j
        (((adj0.set 0 (adj0.getD 0 [] ++ [j])).getD j []) ++ [0])).length = faces.length := by
      simp [hlen]
    obtain ⟨e1, e2⟩ := ih _ hlen1 hpos fun x hx => hjs x (List.mem_cons_of_mem _ hx)
    refine ⟨?_, e2⟩
    rw [e1]
    rw [getD_set_ne _ _ fun h => hj.1 h.symm,
      getD_set_self _ _ (by rw [hlen]; exact hpos)]
    simp

theorem buildAdj_getD_zero {faces : List (FaceDetection K × String)} {m : Nat}
    (hm : faces.length = m + 1) (hnd : (faces.map (·.2)).Nodup) :
    (buildAdj faces).getD 0 [] = (List.range m).map Nat.succ := by
  rw [buildAdj, pairList, hm, List.range_succ_eq_map, List.flatMap_cons]
  have hfilter : (((0 : Nat) :: (List.range m).map Nat.succ).filter fun j => (0 : Nat) < j)
      = (List.range m).map Nat.succ := by
    rw [List.filter_cons]
    simp only [decide_eq_true_eq]
    rw [if_neg (by omega)]
    rw [List.filter_map]
    have : ((List.range m).filter ((fun j => decide ((0:Nat) < j)) ∘ Nat.succ))
        = List.range m := by
      refine List.filter_eq_self.2 fun a _ => ?_
      simp
    rw [this]
  rw [List.foldl_append]
  rw [adjFold_skip_zero faces _ _ ?side]
  case side =>
    intro p hp
    obtain ⟨i, hi, hp2⟩ := List.mem_flatMap.1 hp
    obtain ⟨j, hj, rfl⟩ := List.mem_map.1 hp2
    obtain ⟨a, _, rfl⟩ := List.mem_map.1 hi
    have : Nat.succ a < j := by
      have := (List.mem_filter.1 hj).2
      simpa using this
    exact ⟨Nat.succ_ne_zero a, by omega⟩
  have hmain := adjFold_block_zero faces ((List.range m).map Nat.succ)
    (List.replicate faces.length []) (by simp) (by omega) ?cond
  case cond =>
    intro j hjmem
    obtain ⟨a, ha, rfl⟩ := List.mem_map.1 hjmem
    refine ⟨Nat.succ_ne_zero a, photoAt_ne hnd (by omega) ?_ (Nat.succ_ne_zero a).symm⟩
    rw [hm]
    have := List.mem_range.1 ha
    omega
  rw [hfilter]
  rw [hm] at hmain
  rw [hmain.1]
  simp

end SplitValid

section SplitValidRun

variable {K : Type} [LinearOrderedField K]

theorem bfs_no_new (adj : List (List Nat)) :
    ∀ (q : List Nat), ∀ (v acc : List Nat), (∀ c ∈ q, ∀ x ∈ adj.getD c [], x ∈ v) →
      bfs adj q v acc = (acc ++ q, v) := by
  intro q
  induction q with
  | nil => intro v acc _; simp [bfs]
  | cons c rest ih =>
    intro v acc h
    rw [bfs]
    rw [show visitNeighbors v (adj.getD c []) = (v, []) from
      visitNeighbors_all_old (h c (List.mem_cons_self _ _))]
    show bfs adj (rest ++ []) v (acc ++ [c]) = _
    rw [List.append_nil, ih v (acc ++ [c]) fun x hx => h x (List.mem_cons_of_mem _ hx)]
    simp

theorem foldl_componentsStep_skip (adj : List (List Nat)) :
    ∀ (idxs : List Nat) (st : List Nat × List (List Nat)),
      (∀ i ∈ idxs, i ∈ st.1) → idxs.foldl (componentsStep adj) st = st := by
  intro idxs
  induction idxs with
  | nil => intro st _; rfl
  | cons i rest ih =>
    intro st h
    rw [List.foldl_cons,
      show componentsStep adj st i = st by
        rw [componentsStep, if_pos (h i (List.mem_cons_self _ _))]]
    exact ih st fun j hj => h j (List.mem_cons_of_mem _ hj)

/-- On a duplicate-free, non-empty cluster the compatibility graph is
complete, the single BFS from index 0 collects every index in order, the
validation scan finds no conflict, and the cluster is returned unchanged as
the only sub-cluster. -/
theorem splitByCooccurrence_valid {faces : List (FaceDetection K × String)}
    (hne : faces ≠ []) (hnd : (faces.map (·.2)).Nodup) :
    splitByCooccurrence faces = [faces] := by
  obtain ⟨m, hm⟩ : ∃ m, faces.length = m + 1 := by
    cases hl : faces.length with
    | zero => exact absurd (List.length_eq_zero.1 hl) hne
    | succ k => exact ⟨k, rfl⟩
  have hadj0 : (buildAdj faces).getD 0 [] = (List.range m).map Nat.succ :=
    buildAdj_getD_zero hm hnd
  have hbsnodup : ((List.range m).map Nat.succ).Nodup :=
    (List.nodup_range m).map fun a b h => Nat.succ_injective h
  have hbs_not0 : ∀ x ∈ (List.range m).map Nat.succ, x ∉ ([0] : List Nat) := by
    intro x hx
    obtain ⟨a, _, rfl⟩ := List.mem_map.1 hx
    simp
  have hreach : bfs (buildAdj faces) [0] [0] [] =
      (0 :: (List.range m).map Nat.succ, 0 :: (List.range m).map Nat.succ) := by
    rw [bfs]
    rw [show visitNeighbors [0] ((buildAdj faces).getD 0 []) =
        ([0] ++ (List.range m).map Nat.succ, (List.range m).map Nat.succ) by
      rw [hadj0]
      exact visitNeighbors_all_new hbsnodup hbs_not0]
    show bfs (buildAdj faces) ([] ++ (List.range m).map Nat.succ)
        ([0] ++ (List.range m).map Nat.succ) ([] ++ [0]) = _
    rw [List.nil_append, List.nil_append]
    rw [bfs_no_new (buildAdj faces) _ _ _ ?bound]
    case bound =>
      intro c _ x hx
      have hxlt : x < faces.length := buildAdj_flatten_lt faces x
        (mem_getD_flatten _ _ x hx)
      rw [hm] at hxlt
      rcases Nat.eq_zero_or_pos x with h0 | hpos
      · rw [h0]
        exact List.mem_append_left _ (List.mem_singleton_self 0)
      · refine List.mem_append_right _ (List.mem_map.2 ⟨x - 1, ?_, ?_⟩)
        · exact List.mem_range.2 (by omega)
        · omega
    rfl
  have hcomp : componentsLoop (buildAdj faces) faces.length
      = (0 :: (List.range m).map Nat.succ, [0 :: (List.range m).map Nat.succ]) := by
    rw [componentsLoop, hm, List.range_succ_eq_map, List.foldl_cons]
    rw [show componentsStep (buildAdj faces) ([], []) 0
        = (0 :: (List.range m).map Nat.succ, [0 :: (List.range m).map Nat.succ]) by
      rw [componentsStep, if_neg (by simp)]
      show (((bfs (buildAdj faces) [0] ([] ++ [0]) [])).2,
        [] ++ [(bfs (buildAdj faces) [0] ([] ++ [0]) []).1]) = _
      rw [List.nil_append, hreach]
      simp]
    exact foldl_componentsStep_skip _ _ _ fun i hi => List.mem_cons_of_mem _ hi
  have hfaces : (0 :: (List.range m).map Nat.succ).map
      (fun i => faces.getD i (dummyFace, "")) = faces := by
    have : (0 :: (List.range m).map Nat.succ) = List.range faces.length := by
      rw [hm, List.range_succ_eq_map]
    rw [this, map_getD_range]
  rw [splitByCooccurrence, hcomp]
  simp only [List.map_cons, List.map_nil, hfaces]
  rw [List.flatMap_cons]
  rw [if_pos hnd]
  rfl

end SplitValidRun

section HacLemmas

variable {K : Type} [LinearOrderedField K]

theorem hacLoop_eq_stop1 {sq : K → K} {th : K} {nodes : List (ClusterNode K)}
    {active : List Nat} {m : DistMatrix K} (h : active.length ≤ 1) :
    hacLoop sq th nodes active m = (nodes, active) := by
  rw [hacLoop, if_pos h]

theorem hacLoop_eq_stop2 {sq : K → K} {th : K} {nodes : List (ClusterNode K)}
    {active : List Nat} {m : DistMatrix K} (h : ¬ active.length ≤ 1)
    (hfm : (findMinPair m active).2 = none) :
    hacLoop sq th nodes active m = (nodes, active) := by
  rw [hacLoop, if_neg h]
  split
  · rfl
  · rename_i p heq
    rw [hfm] at heq
    cases heq

theorem hacLoop_eq_stop3 {sq : K → K} {th : K} {nodes : List (ClusterNode K)}
    {active : List Nat} {m : DistMatrix K} {p : Nat × Nat} (h : ¬ active.length ≤ 1)
    (hfm : (findMinPair m active).2 = some p)
    (hge : (th : WithTop K) ≤ (findMinPair m active).1) :
    hacLoop sq th nodes active m = (nodes, active) := by
  rw [hacLoop, if_neg h]
  split
  next heq => rw [hfm] at heq
  next q heq =>
    rw [hfm] at heq
    cases heq
    rw [if_pos hge]

theorem hacLoop_eq_conflict {sq : K → K} {th : K} {nodes : List (ClusterNode K)}
    {active : List Nat} {m : DistMatrix K} {p : Nat × Nat} (h : ¬ active.length ≤ 1)
    (hfm : (findMinPair m active).2 = some p)
    (hlt : ¬ (th : WithTop K) ≤ (findMinPair m active).1)
    (hc : ((nodes.getD p.2 dummyNode).photoIds.any
      fun pid => decide (pid ∈ (nodes.getD p.1 dummyNode).photoIds)) = true) :
    hacLoop sq th nodes active m = hacLoop sq th nodes active (mdel m (okey p.1 p.2)) := by
  rw [hacLoop, if_neg h]
  split
  · rename_i heq
    rw [hfm] at heq
    cases heq
  · rename_i q heq
    rw [hfm] at heq
    cases heq
    rw [if_neg hlt, if_pos hc]

theorem hacLoop_eq_merge {sq : K → K} {th : K} {nodes : List (ClusterNode K)}
    {active : List Nat} {m : DistMatrix K} {p : Nat × Nat} (h : ¬ active.length ≤ 1)
    (hfm : (findMinPair m active).2 = some p)
    (hlt : ¬ (th : WithTop K) ≤ (findMinPair m active).1)
    (hc : ¬ ((nodes.getD p.2 dummyNode).photoIds.any
      fun pid => decide (pid ∈ (nodes.getD p.1 dummyNode).photoIds)) = true) :
    hacLoop sq th nodes active m =
      hacLoop sq th
        (nodes.set p.1 ⟨(nodes.getD p.1 dummyNode).id,
          (nodes.getD p.1 dummyNode).faces ++ (nodes.getD p.2 dummyNode).faces,
          addAll (nodes.getD p.1 dummyNode).photoIds (nodes.getD p.2 dummyNode).photoIds⟩)
        (active.erase p.2)
        (updateDistances sq th
          (nodes.set p.1 ⟨(nodes.getD p.1 dummyNode).id,
            (nodes.getD p.1 dummyNode).faces ++ (nodes.getD p.2 dummyNode).faces,
            addAll (nodes.getD p.1 dummyNode).photoIds (nodes.getD p.2 dummyNode).photoIds⟩)
          p.1 (active.erase p.2) m) := by
  rw [hacLoop, if_neg h]
  split
  · rename_i heq
    rw [hfm] at heq
    cases heq
  · rename_i q heq
    rw [hfm] at heq
    cases heq
    rw [if_neg hlt, if_neg hc]

theorem mget_mdel_length {m : DistMatrix K} {k : Nat × Nat} {v : WithTop K}
    (h : mget m k = some v) : (mdel m k).length < m.length := by
  induction m with
  | nil => cases h
  | cons e rest ih =>
    by_cases he : e.1 = k
    · simp [mdel, he]
    · rw [mget, if_neg he] at h
      simpa [mdel, he] using Nat.succ_lt_succ (ih h)

theorem mem_allPairs {l : List Nat} {p : Nat × Nat} (h : p ∈ allPairs l) :
    p.1 ∈ l ∧ p.2 ∈ l := by
  induction l with
  | nil => cases h
  | cons x xs ih =>
    rw [allPairs, List.mem_append] at h
    rcases h with h | h
    · obtain ⟨y, hy, rfl⟩ := List.mem_map.1 h
      exact ⟨List.mem_cons_self _ _, List.mem_cons_of_mem _ hy⟩
    · exact ⟨List.mem_cons_of_mem _ (ih h).1, List.mem_cons_of_mem _ (ih h).2⟩

theorem mem_allPairs_ne {l : List Nat} (hnd : l.Nodup) {p : Nat × Nat}
    (h : p ∈ allPairs l) : p.1 ≠ p.2 := by
  induction l with
  | nil => cases h
  | cons x xs ih =>
    rw [allPairs, List.mem_append] at h
    rcases h with h | h
    · obtain ⟨y, hy, rfl⟩ := List.mem_map.1 h
      intro he
      refine (List.nodup_cons.1 hnd).1 ?_
      rw [show x = y from he]
      exact hy
    · exact ih (List.nodup_cons.1 hnd).2 h

theorem findMinPair_some {m : DistMatrix K} {active : List Nat} {p : Nat × Nat}
    (h : (findMinPair m active).2 = some p) :
    mget m (okey p.1 p.2) = some (findMinPair m active).1 ∧ p ∈ allPairs active := by
  have main : ∀ (ps : List (Nat × Nat)) (st : WithTop K × Option (Nat × Nat)),
      (∀ q, st.2 = some q → mget m (okey q.1 q.2) = some st.1 ∧ q ∈ allPairs active) →
      (∀ q ∈ ps, q ∈ allPairs active) →
      ∀ q, (ps.foldl (minScanStep m) st).2 = some q →
        mget m (okey q.1 q.2) = some (ps.foldl (minScanStep m) st).1 ∧
          q ∈ allPairs active := by
    intro ps
    induction ps with
    | nil => intro st hst _ q hq; exact hst q hq
    | cons r rs ih =>
      intro st hst hps q
      simp only [List.foldl_cons]
      cases hmg : mget m (okey r.1 r.2) with
      | none =>
        rw [show minScanStep m st r = st by unfold minScanStep; rw [hmg]]
        exact ih st hst (fun q hq => hps q (List.mem_cons_of_mem _ hq)) q
      | some d =>
        rw [show minScanStep m st r = if d < st.1 then (d, some r) else st by
          unfold minScanStep; rw [hmg]]
        by_cases hlt : d < st.1
        · rw [if_pos hlt]
          refine ih (d, some r) ?_ (fun q hq => hps q (List.mem_cons_of_mem _ hq)) q
          intro q hq
          cases hq
          exact ⟨hmg, hps r (List.mem_cons_self _ _)⟩
        · rw [if_neg hlt]
          exact ih st hst (fun q hq => hps q (List.mem_cons_of_mem _ hq)) q
  exact main (allPairs active) (⊤, none) (fun q hq => by cases hq) (fun q hq => hq) p h

end HacLemmas

section HacInvariant

variable {K : Type} [LinearOrderedField K]

/-- Through the whole HAC loop, the multiset of faces carried by the active
nodes is preserved: a merge moves the second node's faces into the first
and deactivates the second; a conflict only drops a matrix entry. -/
theorem hacLoop_invariant (sq : K → K) (th : K) :
    ∀ (nodes : List (ClusterNode K)) (active : List Nat) (m : DistMatrix K),
      active.Nodup → (∀ i ∈ active, i < nodes.length) →
      ((hacLoop sq th nodes active m).2.flatMap
          fun idx => ((hacLoop sq th nodes active m).1.getD idx dummyNode).faces).Perm
        (active.flatMap fun idx => (nodes.getD idx dummyNode).faces) ∧
      (hacLoop sq th nodes active m).2.Nodup ∧
      (∀ i ∈ (hacLoop sq th nodes active m).2, i < (hacLoop sq th nodes active m).1.length) ∧
      (hacLoop sq th nodes active m).1.length = nodes.length := by
  intro nodes active m
  induction nodes, active, m using hacLoop.induct sq th with
  | case1 nodes active m h =>
    intro hnd hbd
    rw [hacLoop_eq_stop1 h]
    exact ⟨List.Perm.refl _, hnd, hbd, rfl⟩
  | case2 nodes active m h hfm =>
    intro hnd hbd
    rw [hacLoop_eq_stop2 h hfm]
    exact ⟨List.Perm.refl _, hnd, hbd, rfl⟩
  | case3 nodes active m h p hfm hge =>
    intro hnd hbd
    rw [hacLoop_eq_stop3 h hfm hge]
    exact ⟨List.Perm.refl _, hnd, hbd, rfl⟩
  | case4 nodes active m h p hfm hlt c1 c2 hc ih =>
    intro hnd hbd
    have hc1 : c1 = nodes.getD p.1 dummyNode := rfl
    have hc2 : c2 = nodes.getD p.2 dummyNode := rfl
    rw [hc1, hc2] at hc
    rw [hacLoop_eq_conflict h hfm hlt hc]
    exact ih hnd hbd
  | case5 nodes active m h p hfm hlt c1 c2 hc nodes' active' ih =>
    intro hnd hbd
    have hc1 : c1 = nodes.getD p.1 dummyNode := rfl
    have hc2 : c2 = nodes.getD p.2 dummyNode := rfl
    have hn' : nodes' = nodes.set p.1
        ⟨c1.id, c1.faces ++ c2.faces, addAll c1.photoIds c2.photoIds⟩ := rfl
    have ha' : active' = active.erase p.2 := rfl
    rw [hc1, hc2] at hn' hc
    rw [hn', ha'] at ih
    rw [hacLoop_eq_merge h hfm hlt hc]
    have hp := findMinPair_some hfm
    obtain ⟨hm1, hm2⟩ := mem_allPairs hp.2
    have hne : p.1 ≠ p.2 := mem_allPairs_ne hnd hp.2
    have hnd' : (active.erase p.2).Nodup := hnd.erase _
    have hmem1' : p.1 ∈ active.erase p.2 :=
      (List.Nodup.mem_erase_iff hnd).2 ⟨hne, hm1⟩
    set nd : ClusterNode K := ⟨(nodes.getD p.1 dummyNode).id,
      (nodes.getD p.1 dummyNode).faces ++ (nodes.getD p.2 dummyNode).faces,
      addAll (nodes.getD p.1 dummyNode).photoIds
        (nodes.getD p.2 dummyNode).photoIds⟩ with hnd_def
    have hlen : (nodes.set p.1 nd).length = nodes.length := List.length_set _ _ _
    have hbd' : ∀ i ∈ active.erase p.2, i < (nodes.set p.1 nd).length := by
      intro i hi
      rw [hlen]
      exact hbd i (List.mem_of_mem_erase hi)
    obtain ⟨g1, g2, g3, g4⟩ := ih hnd' hbd'
    refine ⟨g1.trans ?_, g2, g3, g4.trans hlen⟩
    -- the merged state's faces are a permutation of the old state's faces
    have e0 : active.Perm (p.2 :: active.erase p.2) := List.perm_cons_erase hm2
    have e1 : (active.flatMap fun idx => (nodes.getD idx dummyNode).faces).Perm
        ((nodes.getD p.2 dummyNode).faces ++
          (active.erase p.2).flatMap fun idx => (nodes.getD idx dummyNode).faces) := by
      refine (List.Perm.flatMap_right _ e0).trans ?_
      rw [List.flatMap_cons]
    have e2 : (active.erase p.2).Perm (p.1 :: (active.erase p.2).erase p.1) :=
      List.perm_cons_erase hmem1'
    have hset1 : ((nodes.set p.1 nd).getD p.1 dummyNode).faces
        = (nodes.getD p.1 dummyNode).faces ++ (nodes.getD p.2 dummyNode).faces := by
      rw [getD_set_self _ _ (hbd p.1 hm1)]
    have hsetne : ∀ x ∈ (active.erase p.2).erase p.1,
        ((nodes.set p.1 nd).getD x dummyNode) = nodes.getD x dummyNode := by
      intro x hx
      have hxne : x ≠ p.1 := ((List.Nodup.mem_erase_iff hnd').1 hx).1
      exact getD_set_ne _ _ hxne
    have e3 : ((active.erase p.2).flatMap
          fun idx => ((nodes.set p.1 nd).getD idx dummyNode).faces).Perm
        (((nodes.getD p.1 dummyNode).faces ++ (nodes.getD p.2 dummyNode).faces) ++
          ((active.erase p.2).erase p.1).flatMap
            fun idx => (nodes.getD idx dummyNode).faces) := by
      refine (List.Perm.flatMap_right _ e2).trans ?_
      rw [List.flatMap_cons, hset1]
      refine List.Perm.append_left _ (List.Perm.of_eq ?_)
      refine List.flatMap_congr ?_
      intro x hx
      rw [hsetne x hx]
    have e4 : ((active.erase p.2).flatMap
          fun idx => (nodes.getD idx dummyNode).faces).Perm
        ((nodes.getD p.1 dummyNode).faces ++
          ((active.erase p.2).erase p.1).flatMap
            fun idx => (nodes.getD idx dummyNode).faces) := by
      refine (List.Perm.flatMap_right _ e2).trans ?_
      rw [List.flatMap_cons]
    refine e3.trans (List.Perm.trans ?_ e1.symm)
    refine List.Perm.trans ?_ (List.Perm.append_left _ e4.symm)
    refine List.Perm.trans ?_ (List.Perm.of_eq (List.append_assoc _ _ _))
    exact List.Perm.append_right _ List.perm_append_comm

end HacInvariant

section PartitionLemmas

variable {K : Type} [LinearOrderedField K]

theorem flatten_flatMap {α β : Type} (l : List α) (f : α → List (List β)) :
    (l.flatMap f).flatten = l.flatMap fun x => (f x).flatten := by
  induction l with
  | nil => rfl
  | cons x xs ih => rw [List.flatMap_cons, List.flatten_append, ih, List.flatMap_cons]

theorem filter_ne_nil_flatten {α : Type} [DecidableEq α] (l : List (List α)) :
    (l.filter fun sub => decide (sub ≠ [])).flatten = l.flatten := by
  induction l with
  | nil => rfl
  | cons x xs ih =>
    rw [List.filter_cons]
    by_cases hx : x = []
    · rw [if_neg (by simp [hx])]
      rw [ih, hx, List.flatten_cons, List.nil_append]
    · rw [if_pos (by simp [hx])]
      rw [List.flatten_cons, ih, List.flatten_cons]

theorem initNodes_eq_map (allFaces : List (String × List (FaceDetection K))) :
    initNodes allFaces = (inputPairs allFaces).map fun pr => ⟨pr.1.id, [pr], [pr.2]⟩ := by
  rw [initNodes, inputPairs]
  induction allFaces with
  | nil => rfl
  | cons pf rest ih =>
    rw [List.flatMap_cons, List.flatMap_cons, List.map_append, ih, List.map_map]
    rfl

theorem range_flatMap_initNodes (allFaces : List (String × List (FaceDetection K))) :
    ((List.range (initNodes allFaces).length).flatMap
      fun i => ((initNodes allFaces).getD i dummyNode).faces) = inputPairs allFaces := by
  rw [initNodes_eq_map]
  set L := inputPairs allFaces with hL
  have hlen : (L.map fun pr => (⟨pr.1.id, [pr], [pr.2]⟩ : ClusterNode K)).length
      = L.length := List.length_map _ _
  rw [hlen]
  have hpt : ∀ i ∈ List.range L.length,
      ((L.map fun pr => (⟨pr.1.id, [pr], [pr.2]⟩ : ClusterNode K)).getD i dummyNode).faces
        = [L.getD i (dummyFace, "")] := by
    intro i hi
    have hi' := List.mem_range.1 hi
    rw [List.getD_eq_getElem _ _ (by simpa using hi'), List.getD_eq_getElem _ _ hi',
      List.getElem_map]
  rw [List.flatMap_congr hpt]
  have : (List.range L.length).flatMap (fun i => [L.getD i (dummyFace, "")])
      = (List.range L.length).map fun i => L.getD i (dummyFace, "") := by
    rw [List.flatMap_def]
    rw [show ((fun i => [L.getD i (dummyFace, "")]) : Nat → List (FaceDetection K × String))
        = (fun f => [f]) ∘ (fun i => L.getD i (dummyFace, "")) from rfl]
    rw [← List.map_map]
    rw [flatten_map_singleton]
  rw [this, map_getD_range]

/-- The faces of the final sub-clusters are a permutation of the input
faces: node initialisation, the HAC loop, co-occurrence splitting and the
empty filter all preserve the face multiset. -/
theorem clusterFacesCore_flatten_perm (sq : K → K)
    (allFaces : List (String × List (FaceDetection K))) (th : K) :
    (clusterFacesCore sq allFaces th).flatten.Perm (inputPairs allFaces) := by
  rw [clusterFacesCore]
  have hinv := hacLoop_invariant sq th (initNodes allFaces)
    (List.range (initNodes allFaces).length)
    (buildMatrix sq (initNodes allFaces) th) (List.nodup_range _)
    (fun i hi => by simpa using List.mem_range.1 hi)
  set res := hacLoop sq th (initNodes allFaces) (List.range (initNodes allFaces).length)
    (buildMatrix sq (initNodes allFaces) th) with hres
  rw [flatten_flatMap]
  have hstep : ∀ idx ∈ res.2,
      ((splitByCooccurrence (res.1.getD idx dummyNode).faces).filter
        fun sub => decide (sub ≠ [])).flatten
      = (splitByCooccurrence (res.1.getD idx dummyNode).faces).flatten :=
    fun idx _ => filter_ne_nil_flatten _
  rw [List.flatMap_congr hstep]
  have hpt : (res.2.flatMap fun idx =>
        (splitByCooccurrence (res.1.getD idx dummyNode).faces).flatten).Perm
      (res.2.flatMap fun idx => (res.1.getD idx dummyNode).faces) :=
    List.Perm.bind_left _ fun idx _ => splitByCooccurrence_flatten_perm _
  refine hpt.trans (hinv.1.trans ?_)
  rw [range_flatMap_initNodes]

end PartitionLemmas

section SummarizeLemmas

variable {K : Type} [LinearOrderedField K]

theorem insertDesc_perm {α β : Type} [LinearOrder β] (key : α → β) (x : α) :
    ∀ l : List α, (insertDesc key x l).Perm (x :: l) := by
  intro l
  induction l with
  | nil => exact List.Perm.refl _
  | cons y ys ih =>
    rw [insertDesc]
    by_cases h : key x < key y
    · rw [if_pos h]
      exact (ih.cons y).trans (List.Perm.swap x y ys)
    · rw [if_neg h]

theorem sortByDesc_perm {α β : Type} [LinearOrder β] (key : α → β) :
    ∀ l : List α, (sortByDesc key l).Perm l := by
  intro l
  induction l with
  | nil => exact List.Perm.refl _
  | cons x xs ih =>
    rw [sortByDesc]
    exact (insertDesc_perm key x _).trans (ih.cons x)

theorem insertDesc_sorted {α β : Type} [LinearOrder β] (key : α → β) (x : α)
    {l : List α} (h : l.Pairwise fun a b => key b ≤ key a) :
    (insertDesc key x l).Pairwise fun a b => key b ≤ key a := by
  induction l with
  | nil => exact List.pairwise_singleton _ _
  | cons y ys ih =>
    rw [insertDesc]
    obtain ⟨hy, hys⟩ := List.pairwise_cons.1 h
    by_cases hlt : key x < key y
    · rw [if_pos hlt]
      refine List.pairwise_cons.2 ⟨?_, ih hys⟩
      intro z hz
      have := (insertDesc_perm key x ys).mem_iff.1 hz
      rcases List.mem_cons.1 this with hzx | hzy
      · exact hzx ▸ le_of_lt hlt
      · exact hy z hzy
    · rw [if_neg hlt]
      refine List.pairwise_cons.2 ⟨?_, h⟩
      intro z hz
      rcases List.mem_cons.1 hz with hzy | hzy
      · exact hzy ▸ le_of_not_lt hlt
      · exact le_trans (hy z hzy) (le_of_not_lt hlt)

theorem sortByDesc_sorted {α β : Type} [LinearOrder β] (key : α → β) :
    ∀ l : List α, (sortByDesc key l).Pairwise fun a b => key b ≤ key a := by
  intro l
  induction l with
  | nil => exact List.Pairwise.nil
  | cons x xs ih =>
    rw [sortByDesc]
    exact insertDesc_sorted key x ih

theorem sortByDesc_const {α β : Type} [LinearOrder β] (key : α → β) (c : β) :
    ∀ l : List α, (∀ x ∈ l, key x = c) → sortByDesc key l = l := by
  intro l
  induction l with
  | nil => intro _; rfl
  | cons x xs ih =>
    intro h
    rw [sortByDesc, ih fun y hy => h y (List.mem_cons_of_mem _ hy)]
    cases xs with
    | nil => rfl
    | cons y ys =>
      rw [insertDesc, if_neg ?_]
      rw [h x (List.mem_cons_self _ _), h y (List.mem_cons_of_mem _ (List.mem_cons_self _ _))]
      exact lt_irrefl c

theorem summarize_faceIds (sub : List (FaceDetection K × String)) :
    (summarize sub).faceIds = sub.map (·.1.id) := by
  show (sub.map (·.1)).map (·.id) = sub.map (·.1.id)
  rw [List.map_map]
  rfl

end SummarizeLemmas

/-! ## Claim theorems -/

/-- C1: for every input map `facesByPhoto` and every threshold, every
cluster returned by `clusterFaces` is the summary of one of the final
repaired sub-clusters, and within that sub-cluster's face list all photo
ids are pairwise distinct — no two member faces share a photo id. -/
theorem claim_C1_cluster_disjointness {K : Type} [LinearOrderedField K] (sq : K → K)
    (allFaces : List (String × List (FaceDetection K))) (threshold : K) :
    ∀ c ∈ clusterFaces sq allFaces threshold,
      ∃ sub ∈ clusterFacesCore sq allFaces threshold,
        c = summarize sub ∧ c.faceIds = sub.map (·.1.id) ∧ (sub.map (·.2)).Nodup := by
  intro c hc
  rw [clusterFaces] at hc
  have hc' : c ∈ (clusterFacesCore sq allFaces threshold).map summarize :=
    (sortByDesc_perm _ _).subset hc
  obtain ⟨sub, hsub, rfl⟩ := List.mem_map.1 hc'
  refine ⟨sub, hsub, rfl, summarize_faceIds sub, ?_⟩
  rw [clusterFacesCore] at hsub
  obtain ⟨idx, _, hmem⟩ := List.mem_flatMap.1 hsub
  exact splitByCooccurrence_nodup _ sub (List.mem_filter.1 hmem).1

/-- C2: for every input map and every threshold, the concatenation of the
returned clusters' `faceIds` is a permutation of the ids of the input
faces — no face is lost and none is duplicated; when the input face ids
are pairwise distinct, the returned id lists are jointly duplicate-free,
so each input id appears in exactly one cluster exactly once. -/
theorem claim_C2_partition {K : Type} [LinearOrderedField K] (sq : K → K)
    (allFaces : List (String × List (FaceDetection K))) (threshold : K) :
    (((clusterFaces sq allFaces threshold).map (·.faceIds)).flatten).Perm
      ((inputPairs allFaces).map (·.1.id)) ∧
    (((inputPairs allFaces).map (·.1.id)).Nodup →
      (((clusterFaces sq allFaces threshold).map (·.faceIds)).flatten).Nodup) := by
  have hmain : (((clusterFaces sq allFaces threshold).map (·.faceIds)).flatten).Perm
      ((inputPairs allFaces).map (·.1.id)) := by
    rw [clusterFaces]
    rw [← List.flatMap_def]
    have h1 : ((sortByDesc (fun c => c.photoCount)
        ((clusterFacesCore sq allFaces threshold).map summarize)).flatMap (·.faceIds)).Perm
        (((clusterFacesCore sq allFaces threshold).map summarize).flatMap (·.faceIds)) :=
      List.Perm.flatMap_right _ (sortByDesc_perm _ _)
    refine h1.trans ?_
    rw [List.flatMap_map]
    have h2 : ∀ sub ∈ clusterFacesCore sq allFaces threshold,
        (summarize sub).faceIds = sub.map (·.1.id) :=
      fun sub _ => summarize_faceIds sub
    rw [List.flatMap_congr h2]
    have h3 : (clusterFacesCore sq allFaces threshold).flatMap (fun sub => sub.map (·.1.id))
        = ((clusterFacesCore sq allFaces threshold).flatten).map (·.1.id) := by
      rw [List.map_flatten, ← List.flatMap_def]
    rw [h3]
    exact (clusterFacesCore_flatten_perm sq allFaces threshold).map _
  exact ⟨hmain, fun hnd => (List.Perm.nodup_iff hmain).2 hnd⟩

/-- Witness for C2 at a concrete two-photo input over `ℚ`. -/
theorem claim_C2_partition_witness :
    ((inputPairs [("p1", [(⟨"a", ⟨0, 0, 1, 1⟩, [], none, none, none, none⟩ :
        FaceDetection ℚ)]), ("p2", [⟨"b", ⟨0, 0, 1, 1⟩, [], none, none, none, none⟩])]).map
      (·.1.id)).Nodup ∧
    (((clusterFaces (fun x => x) [("p1", [(⟨"a", ⟨0, 0, 1, 1⟩, [], none, none, none, none⟩ :
        FaceDetection ℚ)]), ("p2", [⟨"b", ⟨0, 0, 1, 1⟩, [], none, none, none, none⟩])]
      (1 : ℚ)).map (·.faceIds)).flatten).Nodup :=
  ⟨by decide, (claim_C2_partition (fun x => x) _ 1).2 (by decide)⟩

/-- C5: the co-occurrence repair step is idempotent on valid input — on a
non-empty cluster face list whose photo ids are pairwise distinct,
`splitByCooccurrence` returns exactly one sub-cluster equal to the
unmodified input. -/
theorem claim_C5_repair_idempotent {K : Type} [LinearOrderedField K]
    {faces : List (FaceDetection K × String)} (h1 : faces ≠ [])
    (h2 : (faces.map (·.2)).Nodup) :
    splitByCooccurrence faces = [faces] :=
  splitByCooccurrence_valid h1 h2

/-- Witness for C5 at a concrete valid two-face cluster over `ℚ`. -/
theorem claim_C5_repair_idempotent_witness :
    ([((⟨"a", ⟨0, 0, 1, 1⟩, [], none, none, none, none⟩ : FaceDetection ℚ), "p1"),
      (⟨"b", ⟨0, 0, 1, 1⟩, [], none, none, none, none⟩, "p2")] ≠
        ([] : List (FaceDetection ℚ × String))) ∧
    (([((⟨"a", ⟨0, 0, 1, 1⟩, [], none, none, none, none⟩ : FaceDetection ℚ), "p1"),
      (⟨"b", ⟨0, 0, 1, 1⟩, [], none, none, none, none⟩, "p2")].map (·.2)).Nodup) ∧
    splitByCooccurrence
      [((⟨"a", ⟨0, 0, 1, 1⟩, [], none, none, none, none⟩ : FaceDetection ℚ), "p1"),
        (⟨"b", ⟨0, 0, 1, 1⟩, [], none, none, none, none⟩, "p2")]
      = [[((⟨"a", ⟨0, 0, 1, 1⟩, [], none, none, none, none⟩ : FaceDetection ℚ), "p1"),
        (⟨"b", ⟨0, 0, 1, 1⟩, [], none, none, none, none⟩, "p2")]] :=
  ⟨by decide, by decide, claim_C5_repair_idempotent (by decide) (by decide)⟩

/-- C9: the processing-state machine is never driven — `processFacesInPhoto`
and `updatePeopleClusters` contain no `setState` call, so a full
detection-plus-reclustering run leaves `currentState` untouched and issues
no subscriber notification; observers never see `detecting` or
`clustering`. -/
theorem claim_C9_state_machine_silent (st : OrchestratorState) :
    runOps (processFacesInPhotoOps ++ updatePeopleClustersOps) st = st := rfl

section NameLemmas

theorem mem_aset {α β : Type} [DecidableEq α] {m : List (α × β)} {k : α} {v : β} :
    ∀ x ∈ aset m k v, x ∈ m ∨ x = (k, v) := by
  induction m with
  | nil =>
    intro x hx
    rw [aset, List.mem_singleton] at hx
    exact Or.inr hx
  | cons e rest ih =>
    intro x hx
    rw [aset] at hx
    by_cases he : e.1 = k
    · rw [if_pos he] at hx
      rcases List.mem_cons.1 hx with h | h
      · exact Or.inr h
      · exact Or.inl (List.mem_cons_of_mem _ h)
    · rw [if_neg he] at hx
      rcases List.mem_cons.1 hx with h | h
      · exact Or.inl (h ▸ List.mem_cons_self _ _)
      · rcases ih x h with h' | h'
        · exact Or.inl (List.mem_cons_of_mem _ h')
        · exact Or.inr h'

theorem tallyNames_pos (m : List (String × String)) (fids : List String) :
    ∀ nc ∈ tallyNames m fids, 1 ≤ nc.2 := by
  rw [tallyNames]
  have main : ∀ (l : List String) (counts : List (String × Nat)),
      (∀ nc ∈ counts, 1 ≤ nc.2) →
      ∀ nc ∈ l.foldl (fun counts fid =>
          match aget m fid with
          | some name => aset counts name ((aget counts name).getD 0 + 1)
          | none => counts) counts, 1 ≤ nc.2 := by
    intro l
    induction l with
    | nil => intro counts h; exact h
    | cons fid rest ih =>
      intro counts h
      rw [List.foldl_cons]
      cases hg : aget m fid with
      | none => exact ih counts h
      | some name =>
        refine ih _ ?_
        intro nc hnc
        rcases mem_aset nc hnc with h' | h'
        · exact h nc h'
        · rw [h']
          omega
  exact main fids [] (by intro nc h; cases h)

theorem foldBest_spec (l : List (String × Nat)) :
    ∀ b0 : String × Nat,
      (l.foldl (fun best nc => if best.2 < nc.2 then nc else best) b0 = b0 ∨
        l.foldl (fun best nc => if best.2 < nc.2 then nc else best) b0 ∈ l) ∧
      (∀ nc ∈ l, nc.2 ≤ (l.foldl (fun best nc => if best.2 < nc.2 then nc else best) b0).2) ∧
      b0.2 ≤ (l.foldl (fun best nc => if best.2 < nc.2 then nc else best) b0).2 := by
  induction l with
  | nil => intro b0; exact ⟨Or.inl rfl, by simp, le_refl _⟩
  | cons nc rest ih =>
    intro b0
    rw [List.foldl_cons]
    by_cases h : b0.2 < nc.2
    · rw [if_pos h]
      obtain ⟨g1, g2, g3⟩ := ih nc
      refine ⟨?_, ?_, le_trans (le_of_lt h) g3⟩
      · rcases g1 with h' | h'
        · exact Or.inr (by rw [h']; exact List.mem_cons_self _ _)
        · exact Or.inr (List.mem_cons_of_mem _ h')
      · intro q hq
        rcases List.mem_cons.1 hq with h' | h'
        · exact h' ▸ g3
        · exact g2 q h'
    · rw [if_neg h]
      obtain ⟨g1, g2, g3⟩ := ih b0
      refine ⟨?_, ?_, g3⟩
      · rcases g1 with h' | h'
        · exact Or.inl h'
        · exact Or.inr (List.mem_cons_of_mem _ h')
      · intro q hq
        rcases List.mem_cons.1 hq with h' | h'
        · exact h' ▸ le_trans (le_of_not_lt h) g3
        · exact g2 q h'

end NameLemmas

/-- C4: name resolution of `updatePeopleClusters`.  In general, a cluster
whose members received no preserved-name votes is named `Person (i+1)` for
its 0-based index `i` in the sorted cluster list, and otherwise the
resolved name is one that attains the maximal vote count in the tally of
the members' preserved names.  Concretely, for a prior person "Alice" on
faces f1, f2, f3, a new cluster {f1, f2, f4} (f3 gone, f4 unnamed) resolves
to "Alice", and a second cluster with no preserved names is named
"Person 2" (its 1-based rank in the sorted output). -/
theorem claim_C4_name_resolution :
    (∀ (m : List (String × String)) (fids : List String) (i : Nat),
      (tallyNames m fids = [] ∧ resolveName m fids i = "Person " ++ toString (i + 1)) ∨
      (∃ c, (resolveName m fids i, c) ∈ tallyNames m fids ∧ 1 ≤ c ∧
        ∀ nc ∈ tallyNames m fids, nc.2 ≤ c)) ∧
    resolveClusterNames [⟨"Alice", ["f1", "f2", "f3"]⟩]
      ([⟨"y", ["f1", "f2", "f4"], [], none, 3, "f1", 0⟩] : List (FaceCluster ℚ))
      = ["Alice"] ∧
    resolveClusterNames [⟨"Alice", ["f1", "f2", "f3"]⟩]
      ([⟨"y", ["f1", "f2", "f4"], [], none, 3, "f1", 0⟩,
        ⟨"z", ["g1"], [], none, 1, "g1", 0⟩] : List (FaceCluster ℚ))
      = ["Alice", "Person 2"] := by
  refine ⟨?_, by decide, by decide⟩
  intro m fids i
  cases ht : tallyNames m fids with
  | nil =>
    refine Or.inl ⟨rfl, ?_⟩
    rw [resolveName, ht]
    rfl
  | cons nc0 rest =>
    refine Or.inr ?_
    rw [resolveName, ht]
    obtain ⟨g1, g2, _⟩ := foldBest_spec (nc0 :: rest) ("Person " ++ toString (i + 1), 0)
    set r := (nc0 :: rest).foldl (fun best nc => if best.2 < nc.2 then nc else best)
      ("Person " ++ toString (i + 1), 0) with hr
    have hrmem : r ∈ nc0 :: rest := by
      rcases g1 with h' | h'
      · exfalso
        have h0 := g2 nc0 (List.mem_cons_self _ _)
        rw [h'] at h0
        have h1 := tallyNames_pos m fids nc0 (ht ▸ List.mem_cons_self _ _)
        omega
      · exact h'
    refine ⟨r.2, ?_, ?_, ?_⟩
    · rw [Prod.mk.eta]
      exact hrmem
    · exact tallyNames_pos m fids r (by rw [ht]; exact hrmem)
    · exact g2

/-- C8 counterexample: a face with no `quality` but a high `score` is
ranked by `(quality || 0) = 0`, not by its score — the cluster's
representative becomes the other face even though the spec's
quality-falling-back-to-score key ranks the scoreless... the quality-less
face strictly higher. -/
theorem claim_C8_counterexample :
    (summarize [((⟨"f1", ⟨0, 0, 1, 1⟩, [], none, some (9/10), none, none⟩ :
          FaceDetection ℚ), "p1"),
        ((⟨"f2", ⟨0, 0, 1, 1⟩, [], none, some (1/10), some (1/2), none⟩ :
          FaceDetection ℚ), "p2")]).representativeFaceId = "f2" ∧
    (⟨"f1", ⟨0, 0, 1, 1⟩, [], none, some (9/10), none, none⟩ :
      FaceDetection ℚ).quality = none ∧
    qualityKeySpec (⟨"f2", ⟨0, 0, 1, 1⟩, [], none, some (1/10), some (1/2), none⟩ :
        FaceDetection ℚ)
      < qualityKeySpec (⟨"f1", ⟨0, 0, 1, 1⟩, [], none, some (9/10), none, none⟩ :
        FaceDetection ℚ) := by
  refine ⟨?_, rfl, ?_⟩
  · rw [summarize]
    norm_num [sortByDesc, insertDesc, qualityKey]
  · show (1 : ℚ)/2 < (9 : ℚ)/10
    norm_num

/-- C8 amended: the summariser ranks member faces by `quality` treating a
missing quality as 0 (the detector score is not used as a fallback); the
representative face is a member whose `(quality || 0)` key is maximal. -/
theorem claim_C8_amended {K : Type} [LinearOrderedField K]
    (sub : List (FaceDetection K × String)) (h : sub ≠ []) :
    ∃ p ∈ sub, (summarize sub).representativeFaceId = p.1.id ∧
      ∀ q ∈ sub, qualityKey q.1 ≤ qualityKey p.1 := by
  have hrep : (summarize sub).representativeFaceId
      = ((sortByDesc qualityKey (sub.map (·.1))).headD dummyFace).id := rfl
  have hperm := sortByDesc_perm qualityKey (sub.map (·.1))
  cases hs : sortByDesc qualityKey (sub.map (·.1)) with
  | nil =>
    exfalso
    rw [hs] at hperm
    have := hperm.length_eq
    simp at this
    exact h (List.length_eq_zero.1 this.symm)
  | cons b rest =>
    have hbmem : b ∈ sub.map (·.1) := by
      refine hperm.subset ?_
      rw [hs]
      exact List.mem_cons_self _ _
    obtain ⟨p, hp, hpb⟩ := List.mem_map.1 hbmem
    refine ⟨p, hp, ?_, ?_⟩
    · rw [hrep, hs, hpb]
      rfl
    · intro q hq
      have hsorted := sortByDesc_sorted qualityKey (sub.map (·.1))
      rw [hs] at hsorted
      have hqmem : q.1 ∈ b :: rest := by
        rw [← hs]
        exact hperm.symm.subset (List.mem_map.2 ⟨q, hq, rfl⟩)
      rw [hpb]
      rcases List.mem_cons.1 hqmem with h' | h'
      · rw [h']
      · exact (List.pairwise_cons.1 hsorted).1 q.1 h'

/-- Witness for the amended C8 at a concrete singleton cluster over `ℚ`. -/
theorem claim_C8_amended_witness :
    ([((⟨"f1", ⟨0, 0, 1, 1⟩, [], none, none, some 1, none⟩ : FaceDetection ℚ), "p1")] ≠
      ([] : List (FaceDetection ℚ × String))) ∧
    ∃ p ∈ [((⟨"f1", ⟨0, 0, 1, 1⟩, [], none, none, some 1, none⟩ : FaceDetection ℚ), "p1")],
      (summarize [((⟨"f1", ⟨0, 0, 1, 1⟩, [], none, none, some 1, none⟩ :
          FaceDetection ℚ), "p1")]).representativeFaceId = p.1.id ∧
      ∀ q ∈ [((⟨"f1", ⟨0, 0, 1, 1⟩, [], none, none, some 1, none⟩ : FaceDetection ℚ), "p1")],
        qualityKey q.1 ≤ qualityKey p.1 :=
  ⟨by decide, claim_C8_amended _ (by decide)⟩

section AssignLemmas

variable {K : Type} [LinearOrderedField K]

theorem assignScanStep_empty (sq : K → K) (face : FaceDetection K) (threshold : K)
    (best : Option (String × K)) {cluster : FaceCluster K} (hc : cluster.anchors = []) :
    assignScanStep sq face threshold best cluster = Except.ok best := by
  rw [assignScanStep]
  rw [hc]
  rfl

theorem assignScanStep_error (sq : K → K) (face : FaceDetection K) (threshold : K)
    (best : Option (String × K)) {cluster : FaceCluster K} (hc : cluster.anchors ≠ []) :
    assignScanStep sq face threshold best cluster = Except.error () := by
  rw [assignScanStep]
  cases h : cluster.anchors with
  | nil => exact absurd h hc
  | cons a rest => rfl

theorem assignFold_ok (sq : K → K) (face : FaceDetection K) (threshold : K) :
    ∀ (cs : List (FaceCluster K)) (b : Option (String × K)), (∀ c ∈ cs, c.anchors = []) →
      cs.foldlM (assignScanStep sq face threshold) b = Except.ok b := by
  intro cs
  induction cs with
  | nil => intro b _; rfl
  | cons c rest ih =>
    intro b hall
    rw [List.foldlM_cons, assignScanStep_empty sq face threshold b
      (hall c (List.mem_cons_self _ _))]
    show rest.foldlM (assignScanStep sq face threshold) b = _
    exact ih b fun c' hc' => hall c' (List.mem_cons_of_mem _ hc')

theorem assignFold_error (sq : K → K) (face : FaceDetection K) (threshold : K) :
    ∀ (cs : List (FaceCluster K)) (b : Option (String × K)),
      (∃ c ∈ cs, c.anchors ≠ []) →
      cs.foldlM (assignScanStep sq face threshold) b = Except.error () := by
  intro cs
  induction cs with
  | nil =>
    intro b hb
    obtain ⟨c, hc, _⟩ := hb
    cases hc
  | cons c rest ih =>
    intro b hex
    rw [List.foldlM_cons]
    by_cases hc : c.anchors = []
    · rw [assignScanStep_empty sq face threshold b hc]
      show rest.foldlM (assignScanStep sq face threshold) b = _
      obtain ⟨c', hc', hne⟩ := hex
      rcases List.mem_cons.1 hc' with h' | h'
      · exact absurd (h' ▸ hc) hne
      · exact ih b ⟨c', h', hne⟩
    · rw [assignScanStep_error sq face threshold b hc]
      rfl

end AssignLemmas

/-- C10: `assignFaceToCluster` builds its comparison face as
`{ descriptor: anchor } as any`, so the distance computation dereferences
the missing bounding box and throws for every cluster that has at least
one anchor; the call completes normally (returning `null`) exactly when
every cluster's anchor list is empty. -/
theorem claim_C10_assign_always_throws {K : Type} [LinearOrderedField K] (sq : K → K)
    (face : FaceDetection K) (clusters : List (FaceCluster K)) (threshold : K) :
    ((∀ c ∈ clusters, c.anchors = []) →
      assignFaceToCluster sq face clusters threshold = Except.ok none) ∧
    ((∃ c ∈ clusters, c.anchors ≠ []) →
      assignFaceToCluster sq face clusters threshold = Except.error ()) := by
  constructor
  · intro hall
    rw [assignFaceToCluster, assignFold_ok sq face threshold clusters none hall]
    rfl
  · intro hex
    rw [assignFaceToCluster, assignFold_error sq face threshold clusters none hex]
    rfl

/-- Witness for C10 over `ℚ`: a single anchor-free cluster yields `ok
none`; a single cluster with one anchor yields the modelled `TypeError`. -/
theorem claim_C10_assign_always_throws_witness :
    (∀ c ∈ [(⟨"c1", [], [], none, 1, "r", 0⟩ : FaceCluster ℚ)], c.anchors = []) ∧
    assignFaceToCluster (fun x => x)
      (⟨"x", ⟨0, 0, 1, 1⟩, [], none, none, none, none⟩ : FaceDetection ℚ)
      [⟨"c1", [], [], none, 1, "r", 0⟩] 1 = Except.ok none ∧
    (∃ c ∈ [(⟨"c2", [], [[1]], none, 1, "r", 0⟩ : FaceCluster ℚ)], c.anchors ≠ []) ∧
    assignFaceToCluster (fun x => x)
      (⟨"x", ⟨0, 0, 1, 1⟩, [], none, none, none, none⟩ : FaceDetection ℚ)
      [⟨"c2", [], [[1]], none, 1, "r", 0⟩] 1 = Except.error () :=
  ⟨by decide,
    (claim_C10_assign_always_throws (fun x => x) _ _ 1).1 (by decide),
    by decide,
    (claim_C10_assign_always_throws (fun x => x) _ _ 1).2 (by decide)⟩

section MetricLemmas

variable {K : Type} [LinearOrderedField K]

theorem skinToneSimilarity_nonneg {sq : K → K} (hsq : ∀ x, 0 ≤ sq x) :
    ∀ o1 o2 : Option (RGB K), 0 ≤ skinToneSimilarity sq o1 o2 := by
  intro o1 o2
  cases o1 with
  | none => cases o2 <;> exact zero_le_one
  | some t1 =>
    cases o2 with
    | none => exact zero_le_one
    | some t2 =>
      show 0 ≤ sq ((t1.r - t2.r) ^ 2 + (t1.g - t2.g) ^ 2 + (t1.b - t2.b) ^ 2) / 441.67
      exact div_nonneg (hsq _) (by norm_num)

theorem landmarkDist_nonneg (sq : K → K) (f1 f2 : FaceDetection K) :
    0 ≤ landmarkDist sq f1 f2 := by
  rw [landmarkDist]
  cases f1.landmarks with
  | none => exact le_refl (0 : K)
  | some pos1 =>
    cases f2.landmarks with
    | none => exact le_refl (0 : K)
    | some pos2 =>
      show 0 ≤ if 62 < pos1.length ∧ 62 < pos2.length then
        (|(getProp sq pos1).1 - (getProp sq pos2).1|
          + |(getProp sq pos1).2 - (getProp sq pos2).2|) / 2 else 0
      by_cases hlen : 62 < pos1.length ∧ 62 < pos2.length
      · rw [if_pos hlen]
        positivity
      · rw [if_neg hlen]

theorem calculateWeightedDistance_nonneg {sq : K → K} (hsq : ∀ x, 0 ≤ sq x)
    (f1 f2 : FaceDetection K) : 0 ≤ calculateWeightedDistance sq f1 f2 := by
  rw [calculateWeightedDistance]
  have h1 : 0 ≤ faceDistance sq f1.descriptor f2.descriptor := hsq _
  have h2 : 0 ≤ shapeTerm f1 f2 := le_min (abs_nonneg _) zero_le_one
  have h3 : 0 ≤ landmarkTerm sq f1 f2 := le_min (landmarkDist_nonneg sq f1 f2) zero_le_one
  have h4 : 0 ≤ toneTerm sq f1 f2 := skinToneSimilarity_nonneg hsq _ _
  have w1 : (0 : K) ≤ 0.60 := by norm_num
  have w2 : (0 : K) ≤ 0.05 := by norm_num
  have w3 : (0 : K) ≤ 0.20 := by norm_num
  have w4 : (0 : K) ≤ 0.15 := by norm_num
  exact add_nonneg (add_nonneg (add_nonneg (mul_nonneg h1 w1) (mul_nonneg h2 w2))
    (mul_nonneg h3 w3)) (mul_nonneg h4 w4)

end MetricLemmas

/-- C6 counterexample: at black vs white skin tones the normalized
skin-tone term is `√(3·255²)/441.67 = √195075/441.67 > 1`, so the term is
not clamped into `[0, 1]` at the point it is weighted. -/
theorem claim_C6_counterexample :
    1 < toneTerm Real.sqrt
      (⟨"f1", ⟨0, 0, 1, 1⟩, [], none, none, none, some ⟨0, 0, 0⟩⟩ : FaceDetection ℝ)
      (⟨"f2", ⟨0, 0, 1, 1⟩, [], none, none, none, some ⟨255, 255, 255⟩⟩ : FaceDetection ℝ) := by
  show 1 < Real.sqrt (((0 : ℝ) - 255) ^ 2 + ((0 : ℝ) - 255) ^ 2 + ((0 : ℝ) - 255) ^ 2) / 441.67
  rw [show (((0 : ℝ) - 255) ^ 2 + ((0 : ℝ) - 255) ^ 2 + ((0 : ℝ) - 255) ^ 2) = 195075 by
    norm_num]
  rw [lt_div_iff₀ (by norm_num : (0 : ℝ) < 441.67)]
  rw [one_mul]
  rw [show (441.67 : ℝ) = 44167 / 100 by norm_num]
  rw [Real.lt_sqrt (by norm_num)]
  norm_num

/-- C6 amended: of the three auxiliary sub-terms, the shape-ratio term and
the landmark-proportion term are clamped into `[0, 1]` before weighting;
the skin-tone term is only normalized by dividing by `441.67` — it is
nonnegative, and with RGB components in `[0, 255]` it is bounded by
`√195075/441.67 ≈ 1.0000066`, slightly exceeding 1, so it is not clamped
into `[0, 1]`. -/
theorem claim_C6_amended (f1 f2 : FaceDetection ℝ) :
    (0 ≤ shapeTerm f1 f2 ∧ shapeTerm f1 f2 ≤ 1) ∧
    (0 ≤ landmarkTerm Real.sqrt f1 f2 ∧ landmarkTerm Real.sqrt f1 f2 ≤ 1) ∧
    0 ≤ toneTerm Real.sqrt f1 f2 ∧
    (∀ t1 t2 : RGB ℝ, f1.skinTone = some t1 → f2.skinTone = some t2 →
      (0 ≤ t1.r ∧ t1.r ≤ 255) → (0 ≤ t1.g ∧ t1.g ≤ 255) → (0 ≤ t1.b ∧ t1.b ≤ 255) →
      (0 ≤ t2.r ∧ t2.r ≤ 255) → (0 ≤ t2.g ∧ t2.g ≤ 255) → (0 ≤ t2.b ∧ t2.b ≤ 255) →
      toneTerm Real.sqrt f1 f2 ≤ Real.sqrt 195075 / 441.67) := by
  refine ⟨⟨le_min (abs_nonneg _) zero_le_one, min_le_right _ _⟩,
    ⟨le_min (landmarkDist_nonneg _ f1 f2) zero_le_one, min_le_right _ _⟩,
    skinToneSimilarity_nonneg (fun x => Real.sqrt_nonneg x) _ _, ?_⟩
  intro t1 t2 h1 h2 hr1 hg1 hb1 hr2 hg2 hb2
  rw [toneTerm, h1, h2]
  show Real.sqrt ((t1.r - t2.r) ^ 2 + (t1.g - t2.g) ^ 2 + (t1.b - t2.b) ^ 2) / 441.67
      ≤ Real.sqrt 195075 / 441.67
  rw [div_le_div_iff_of_pos_right (by norm_num : (0 : ℝ) < 441.67)]
  refine Real.sqrt_le_sqrt ?_
  nlinarith [sq_nonneg (t1.r - t2.r), sq_nonneg (t1.g - t2.g), sq_nonneg (t1.b - t2.b),
    hr1.1, hr1.2, hg1.1, hg1.2, hb1.1, hb1.2, hr2.1, hr2.2, hg2.1, hg2.2, hb2.1, hb2.2]

/-- Witness for the amended C6 at concrete in-range tones. -/
theorem claim_C6_amended_witness :
    ((0 : ℝ) ≤ 10 ∧ (10 : ℝ) ≤ 255) ∧
    toneTerm Real.sqrt
      (⟨"f1", ⟨0, 0, 1, 1⟩, [], none, none, none, some ⟨10, 10, 10⟩⟩ : FaceDetection ℝ)
      (⟨"f2", ⟨0, 0, 1, 1⟩, [], none, none, none, some ⟨20, 20, 20⟩⟩ : FaceDetection ℝ)
      ≤ Real.sqrt 195075 / 441.67 :=
  ⟨by norm_num,
    (claim_C6_amended _ _).2.2.2 ⟨10, 10, 10⟩ ⟨20, 20, 20⟩ rfl rfl
      (by norm_num) (by norm_num) (by norm_num) (by norm_num) (by norm_num) (by norm_num)⟩

section ZeroThreshold

variable {K : Type} [LinearOrderedField K]

theorem mget_mem {m : DistMatrix K} {k : Nat × Nat} {v : WithTop K}
    (h : mget m k = some v) : (k, v) ∈ m := by
  induction m with
  | nil => cases h
  | cons e rest ih =>
    by_cases he : e.1 = k
    · rw [mget, if_pos he] at h
      cases h
      have hke : (k, e.2) = e := by
        rw [← he]
      rw [hke]
      exact List.mem_cons_self _ _
    · rw [mget, if_neg he] at h
      exact List.mem_cons_of_mem _ (ih h)

theorem mem_mset {m : DistMatrix K} {k : Nat × Nat} {v : WithTop K} :
    ∀ x ∈ mset m k v, x ∈ m ∨ x = (k, v) := by
  induction m with
  | nil =>
    intro x hx
    rw [mset, List.mem_singleton] at hx
    exact Or.inr hx
  | cons e rest ih =>
    intro x hx
    rw [mset] at hx
    by_cases he : e.1 = k
    · rw [if_pos he] at hx
      rcases List.mem_cons.1 hx with h | h
      · exact Or.inr h
      · exact Or.inl (List.mem_cons_of_mem _ h)
    · rw [if_neg he] at hx
      rcases List.mem_cons.1 hx with h | h
      · exact Or.inl (h ▸ List.mem_cons_self _ _)
      · rcases ih x h with h' | h'
        · exact Or.inl (List.mem_cons_of_mem _ h')
        · exact Or.inr h'

theorem buildMatrix_zero_top (sq : K → K) (hsq : ∀ x, 0 ≤ sq x)
    (nodes : List (ClusterNode K)) :
    ∀ e ∈ buildMatrix sq nodes 0, e.2 = ⊤ := by
  rw [buildMatrix]
  have main : ∀ (ps : List (Nat × Nat)) (m0 : DistMatrix K), (∀ e ∈ m0, e.2 = ⊤) →
      ∀ e ∈ ps.foldl (fun m ij =>
        if ((nodes.getD ij.1 dummyNode).photoIds.headD ""
            = (nodes.getD ij.2 dummyNode).photoIds.headD "") then mset m ij ⊤
        else
          if calculateWeightedDistance sq ((nodes.getD ij.1 dummyNode).faces.headD
              (dummyFace, "")).1 ((nodes.getD ij.2 dummyNode).faces.headD (dummyFace, "")).1
              < (0 : K) then
            mset m ij (↑(calculateWeightedDistance sq ((nodes.getD ij.1 dummyNode).faces.headD
              (dummyFace, "")).1 ((nodes.getD ij.2 dummyNode).faces.headD (dummyFace, "")).1))
          else m) m0, e.2 = ⊤ := by
    intro ps
    induction ps with
    | nil => intro m0 h0; exact h0
    | cons r rs ih =>
      intro m0 h0
      rw [List.foldl_cons]
      refine ih _ ?_
      by_cases hsame : ((nodes.getD r.1 dummyNode).photoIds.headD ""
          = (nodes.getD r.2 dummyNode).photoIds.headD "")
      · rw [if_pos hsame]
        intro e he
        rcases mem_mset e he with h | h
        · exact h0 e h
        · rw [h]
      · rw [if_neg hsame]
        rw [if_neg (not_lt.2 (calculateWeightedDistance_nonneg hsq _ _))]
        exact h0
  exact main _ [] (by intro e h; cases h)

theorem findMinPair_all_top {m : DistMatrix K} (hm : ∀ e ∈ m, e.2 = ⊤)
    (active : List Nat) : findMinPair m active = (⊤, none) := by
  rw [findMinPair]
  have main : ∀ ps : List (Nat × Nat),
      ps.foldl (minScanStep m) ((⊤ : WithTop K), none) = (⊤, none) := by
    intro ps
    induction ps with
    | nil => rfl
    | cons r rs ih =>
      rw [List.foldl_cons]
      cases hmg : mget m (okey r.1 r.2) with
      | none =>
        rw [show minScanStep m (⊤, none) r = (⊤, none) by unfold minScanStep; rw [hmg]]
        exact ih
      | some d =>
        have hd : d = ⊤ := hm _ (mget_mem hmg)
        rw [show minScanStep m ((⊤ : WithTop K), none) r = (⊤, none) by
          unfold minScanStep
          rw [hmg, hd]
          show (if (⊤ : WithTop K) < ⊤ then ((⊤ : WithTop K), some r) else (⊤, none))
            = (⊤, none)
          rw [if_neg (lt_irrefl _)]]
        exact ih
  exact main _

theorem summarize_singleton_photoCount (pr : FaceDetection K × String) :
    (summarize [pr]).photoCount = 1 := by
  show ([pr.2]).dedup.length = 1
  rw [List.dedup_cons_of_not_mem (by simp), List.dedup_nil]
  rfl

end ZeroThreshold

/-- C7: with threshold 0 no finite distance is ever recorded (the weighted
distance is nonnegative for a nonnegative square root), the HAC loop
terminates immediately, repair keeps each singleton node unchanged, and
`clusterFaces` returns one singleton cluster per input face, each with
`photoCount = 1` — a valid result, not an error. -/
theorem claim_C7_zero_threshold {K : Type} [LinearOrderedField K] (sq : K → K)
    (hsq : ∀ x, 0 ≤ sq x) (allFaces : List (String × List (FaceDetection K))) :
    clusterFaces sq allFaces 0 = (inputPairs allFaces).map (fun pr => summarize [pr]) ∧
    ∀ c ∈ clusterFaces sq allFaces 0, c.photoCount = 1 ∧ c.faceIds.length = 1 := by
  have hres : hacLoop sq 0 (initNodes allFaces)
      (List.range (initNodes allFaces).length)
      (buildMatrix sq (initNodes allFaces) 0) =
      (initNodes allFaces, List.range (initNodes allFaces).length) := by
    by_cases h : (List.range (initNodes allFaces).length).length ≤ 1
    · exact hacLoop_eq_stop1 h
    · refine hacLoop_eq_stop2 h ?_
      rw [findMinPair_all_top (buildMatrix_zero_top sq hsq _) _]
  have hL : (initNodes allFaces).length = (inputPairs allFaces).length := by
    rw [initNodes_eq_map, List.length_map]
  have hcore : clusterFacesCore sq allFaces 0
      = (inputPairs allFaces).map fun pr => [pr] := by
    rw [clusterFacesCore]
    rw [hres]
    have hpt : ∀ idx ∈ List.range (initNodes allFaces).length,
        ((splitByCooccurrence ((initNodes allFaces).getD idx dummyNode).faces).filter
          fun sub => decide (sub ≠ []))
        = [[(inputPairs allFaces).getD idx (dummyFace, "")]] := by
      intro idx hidx
      have hidx' := List.mem_range.1 hidx
      have hidx2 : idx < (inputPairs allFaces).length := by
        rw [← hL]
        exact hidx'
      have hfaces : ((initNodes allFaces).getD idx dummyNode).faces
          = [(inputPairs allFaces).getD idx (dummyFace, "")] := by
        rw [initNodes_eq_map, List.getD_eq_getElem _ _ (by simpa using hidx2),
          List.getElem_map, List.getD_eq_getElem _ _ hidx2]
      rw [hfaces, splitByCooccurrence_valid (by simp) (by simp)]
      rfl
    rw [List.flatMap_congr hpt]
    rw [show (fun idx => [[(inputPairs allFaces).getD idx (dummyFace, "")]])
        = (fun sub => [sub]) ∘ (fun idx => [(inputPairs allFaces).getD idx (dummyFace, "")])
      from rfl]
    rw [show ((fun idx => [(inputPairs allFaces).getD idx (dummyFace, "")]) : Nat → _)
        = (fun pr => [pr]) ∘ (fun idx => (inputPairs allFaces).getD idx (dummyFace, ""))
      from rfl]
    rw [List.flatMap_def, ← List.map_map, ← List.map_map, flatten_map_singleton, hL,
      map_getD_range]
  constructor
  · rw [clusterFaces, hcore]
    rw [List.map_map]
    refine Eq.trans (sortByDesc_const _ 1 _ ?_) rfl
    intro c hc
    obtain ⟨pr, _, rfl⟩ := List.mem_map.1 hc
    exact summarize_singleton_photoCount pr
  · intro c hc
    rw [clusterFaces, hcore] at hc
    rw [List.map_map] at hc
    have hc' : c ∈ (inputPairs allFaces).map (summarize ∘ fun pr => [pr]) :=
      (sortByDesc_perm _ _).subset hc
    obtain ⟨pr, _, rfl⟩ := List.mem_map.1 hc'
    exact ⟨summarize_singleton_photoCount pr, rfl⟩

/-- Witness for C7: one photo with two faces over `ℝ` with the real square
root. -/
theorem claim_C7_zero_threshold_witness :
    (∀ x : ℝ, 0 ≤ Real.sqrt x) ∧
    clusterFaces Real.sqrt
      [("p1", [(⟨"a", ⟨0, 0, 1, 1⟩, [], none, none, none, none⟩ : FaceDetection ℝ),
        ⟨"b", ⟨0, 0, 1, 1⟩, [], none, none, none, none⟩])] 0
      = (inputPairs [("p1", [(⟨"a", ⟨0, 0, 1, 1⟩, [], none, none, none, none⟩ :
          FaceDetection ℝ), ⟨"b", ⟨0, 0, 1, 1⟩, [], none, none, none, none⟩])]).map
        (fun pr => summarize [pr]) :=
  ⟨fun x => Real.sqrt_nonneg x,
    (claim_C7_zero_threshold Real.sqrt (fun x => Real.sqrt_nonneg x) _).1⟩

section MatrixLemmas

variable {K : Type} [LinearOrderedField K]

theorem mget_mset_self (m : DistMatrix K) (k : Nat × Nat) (v : WithTop K) :
    mget (mset m k v) k = some v := by
  induction m with
  | nil => simp [mset, mget]
  | cons e rest ih =>
    by_cases he : e.1 = k
    · simp [mset, he, mget]
    · simp only [mset, if_neg he]
      rw [mget, if_neg he]
      exact ih

theorem mget_mset_ne (m : DistMatrix K) {k k' : Nat × Nat} (v : WithTop K) (h : k' ≠ k) :
    mget (mset m k v) k' = mget m k' := by
  induction m with
  | nil =>
    simp only [mset, mget]
    rw [if_neg (show ¬ k = k' from fun he => h he.symm)]
  | cons e rest ih =>
    by_cases he : e.1 = k
    · rw [mset, if_pos he]
      simp only [mget]
      rw [if_neg (show ¬ k = k' from fun hk => h hk.symm),
        if_neg (show ¬ e.1 = k' from fun h2 => h (by rw [← h2, he]))]
    · rw [mset, if_neg he]
      simp only [mget]
      by_cases he' : e.1 = k'
      · rw [if_pos he', if_pos he']
      · rw [if_neg he', if_neg he']
        exact ih

theorem mget_mdel_ne (m : DistMatrix K) {k k' : Nat × Nat} (h : k' ≠ k) :
    mget (mdel m k) k' = mget m k' := by
  induction m with
  | nil => rfl
  | cons e rest ih =>
    by_cases he : e.1 = k
    · rw [mdel, if_pos he, mget, if_neg (show ¬ e.1 = k' from fun h2 => h (by rw [← h2, he]))]
    · rw [mdel, if_neg he]
      simp only [mget]
      by_cases he' : e.1 = k'
      · rw [if_pos he', if_pos he']
      · rw [if_neg he', if_neg he']
        exact ih

theorem mdel_subset {m : DistMatrix K} {k : Nat × Nat} : ∀ x ∈ mdel m k, x ∈ m := by
  induction m with
  | nil => intro x hx; cases hx
  | cons e rest ih =>
    intro x hx
    by_cases he : e.1 = k
    · rw [mdel, if_pos he] at hx
      exact List.mem_cons_of_mem _ hx
    · rw [mdel, if_neg he] at hx
      rcases List.mem_cons.1 hx with h' | h'
      · exact h' ▸ List.mem_cons_self _ _
      · exact List.mem_cons_of_mem _ (ih _ h')

theorem mget_mdel_self {m : DistMatrix K} (hnd : (m.map (·.1)).Nodup) (k : Nat × Nat) :
    mget (mdel m k) k = none := by
  induction m with
  | nil => rfl
  | cons e rest ih =>
    rw [List.map_cons, List.nodup_cons] at hnd
    obtain ⟨hhd, htl⟩ := hnd
    by_cases he : e.1 = k
    · rw [mdel, if_pos he]
      cases hmg : mget rest k with
      | none => rfl
      | some v =>
        exfalso
        have hmem : (k, v) ∈ rest := mget_mem hmg
        exact hhd (by rw [he]; exact List.mem_map.2 ⟨(k, v), hmem, rfl⟩)
    · rw [mdel, if_neg he, mget, if_neg he]
      exact ih htl

theorem mset_keys_nodup {m : DistMatrix K} (hnd : (m.map (·.1)).Nodup)
    (k : Nat × Nat) (v : WithTop K) : ((mset m k v).map (·.1)).Nodup := by
  induction m with
  | nil => simp [mset]
  | cons e rest ih =>
    rw [List.map_cons, List.nodup_cons] at hnd
    obtain ⟨hhd, htl⟩ := hnd
    by_cases he : e.1 = k
    · rw [mset, if_pos he, List.map_cons]
      exact List.nodup_cons.2 ⟨he ▸ hhd, htl⟩
    · rw [mset, if_neg he, List.map_cons]
      refine List.nodup_cons.2 ⟨?_, ih htl⟩
      intro hmem
      obtain ⟨x, hx, hx1⟩ := List.mem_map.1 hmem
      rcases mem_mset x hx with h' | h'
      · exact hhd (List.mem_map.2 ⟨x, h', hx1⟩)
      · rw [h'] at hx1
        exact he hx1.symm

theorem mdel_keys_nodup {m : DistMatrix K} (hnd : (m.map (·.1)).Nodup)
    (k : Nat × Nat) : ((mdel m k).map (·.1)).Nodup := by
  induction m with
  | nil => simp [mdel]
  | cons e rest ih =>
    rw [List.map_cons, List.nodup_cons] at hnd
    obtain ⟨hhd, htl⟩ := hnd
    by_cases he : e.1 = k
    · rw [mdel, if_pos he]
      exact htl
    · rw [mdel, if_neg he, List.map_cons]
      refine List.nodup_cons.2 ⟨?_, ih htl⟩
      intro hmem
      obtain ⟨x, hx, hx1⟩ := List.mem_map.1 hmem
      exact hhd (List.mem_map.2 ⟨x, mdel_subset x hx, hx1⟩)

end MatrixLemmas

section HacBisim

variable {K : Type} [LinearOrderedField K]

theorem minScanStep_none {m : DistMatrix K} {st : WithTop K × Option (Nat × Nat)}
    {r : Nat × Nat} (h : mget m (okey r.1 r.2) = none) : minScanStep m st r = st := by
  unfold minScanStep
  rw [h]

theorem minScanStep_some {m : DistMatrix K} {st : WithTop K × Option (Nat × Nat)}
    {r : Nat × Nat} {d : WithTop K} (h : mget m (okey r.1 r.2) = some d) :
    minScanStep m st r = if d < st.1 then (d, some r) else st := by
  unfold minScanStep
  rw [h]

theorem updateDistances_eq (sq : K → K) (th : K) (nodes : List (ClusterNode K))
    (idx1 : Nat) (active : List Nat) (m : DistMatrix K) :
    updateDistances sq th nodes idx1 active m = active.foldl (updStep sq th nodes idx1) m :=
  rfl

theorem buildMatrix_eq (sq : K → K) (nodes : List (ClusterNode K)) (th : K) :
    buildMatrix sq nodes th = (pairList nodes.length).foldl (bmStep sq nodes th) [] :=
  rfl

/-- Under `MatrixRel`, a minimum scan of the lower-threshold run that ends
strictly below `th1` is reproduced verbatim by the higher-threshold run:
every extra entry of the richer matrix has value `≥ th1` and cannot win. -/
theorem findMinPair_rel {th1 th2 : K} {m1 m2 : DistMatrix K}
    (hrel : MatrixRel th1 th2 m1 m2) (active : List Nat)
    (hlt : (findMinPair m1 active).1 < (th1 : WithTop K)) :
    findMinPair m2 active = findMinPair m1 active := by
  have main : ∀ (ps : List (Nat × Nat)) (st1 st2 : WithTop K × Option (Nat × Nat)),
      st2.1 ≤ st1.1 → (st2 = st1 ∨ (th1 : WithTop K) ≤ st2.1) →
      (ps.foldl (minScanStep m2) st2).1 ≤ (ps.foldl (minScanStep m1) st1).1 ∧
      (ps.foldl (minScanStep m2) st2 = ps.foldl (minScanStep m1) st1 ∨
        (th1 : WithTop K) ≤ (ps.foldl (minScanStep m2) st2).1) := by
    intro ps
    induction ps with
    | nil =>
      intro st1 st2 hle hd
      exact ⟨hle, hd⟩
    | cons r rs ih =>
      intro st1 st2 hle hd
      simp only [List.foldl_cons]
      rcases hrel (okey r.1 r.2) with heq | ⟨h1n, v, h2v, hv1, _⟩
      · cases hmg : mget m1 (okey r.1 r.2) with
        | none =>
          rw [minScanStep_none hmg, minScanStep_none (heq ▸ hmg)]
          exact ih st1 st2 hle hd
        | some d =>
          rw [minScanStep_some hmg, minScanStep_some (heq ▸ hmg)]
          rcases hd with hsame | hge
          · rw [hsame]
            by_cases h2 : d < st1.1
            · rw [if_pos h2]
              exact ih _ _ le_rfl (Or.inl rfl)
            · rw [if_neg h2]
              exact ih _ _ le_rfl (Or.inl rfl)
          · by_cases h2 : d < st2.1
            · rw [if_pos h2, if_pos (lt_of_lt_of_le h2 hle)]
              exact ih _ _ le_rfl (Or.inl rfl)
            · rw [if_neg h2]
              by_cases h1 : d < st1.1
              · rw [if_pos h1]
                exact ih _ _ (not_lt.1 h2) (Or.inr hge)
              · rw [if_neg h1]
                exact ih _ _ hle (Or.inr hge)
      · rw [minScanStep_none h1n, minScanStep_some h2v]
        by_cases hv : v < st2.1
        · rw [if_pos hv]
          exact ih _ _ (le_of_lt (lt_of_lt_of_le hv hle)) (Or.inr hv1)
        · rw [if_neg hv]
          exact ih _ _ hle hd
  obtain ⟨hle, hd⟩ := main (allPairs active) (⊤, none) (⊤, none) le_rfl (Or.inl rfl)
  rcases hd with hsame | hge
  · exact hsame
  · exact absurd (lt_of_le_of_lt (hge.trans hle) hlt) (lt_irrefl _)

/-- Deleting the same key from two related matrices preserves the relation. -/
theorem rel_mdel {th1 th2 : K} {m1 m2 : DistMatrix K} (hrel : MatrixRel th1 th2 m1 m2)
    (h1 : (m1.map (·.1)).Nodup) (h2 : (m2.map (·.1)).Nodup) (k : Nat × Nat) :
    MatrixRel th1 th2 (mdel m1 k) (mdel m2 k) := by
  intro k'
  by_cases he : k' = k
  · subst he
    left
    rw [mget_mdel_self h1, mget_mdel_self h2]
  · rw [mget_mdel_ne _ he, mget_mdel_ne _ he]
    exact hrel k'

/-- One distance-update step at the two thresholds preserves `MatrixRel`:
the same average is computed; below `th1` both sides record it, in
`[th1, th2)` only the richer side records it, at `≥ th2` both drop it. -/
theorem rel_updStep {th1 th2 : K} (hth : th1 ≤ th2) (sq : K → K)
    (nodes : List (ClusterNode K)) (idx1 o : Nat) {m1 m2 : DistMatrix K}
    (hrel : MatrixRel th1 th2 m1 m2) (h1 : (m1.map (·.1)).Nodup)
    (h2 : (m2.map (·.1)).Nodup) :
    MatrixRel th1 th2 (updStep sq th1 nodes idx1 m1 o) (updStep sq th2 nodes idx1 m2 o) := by
  by_cases ho : o = idx1
  · rw [updStep, if_pos ho, updStep, if_pos ho]
    exact hrel
  · rw [updStep, if_neg ho, updStep, if_neg ho]
    by_cases ha1 : avgD sq nodes idx1 o < (th1 : WithTop K)
    · have ha2 : avgD sq nodes idx1 o < (th2 : WithTop K) :=
        lt_of_lt_of_le ha1 (WithTop.coe_le_coe.2 hth)
      rw [if_pos ha1, if_pos ha2]
      intro k'
      by_cases hk : k' = okey idx1 o
      · subst hk
        left
        rw [mget_mset_self, mget_mset_self]
      · rw [mget_mset_ne _ _ hk, mget_mset_ne _ _ hk]
        exact hrel k'
    · rw [if_neg ha1]
      by_cases ha2 : avgD sq nodes idx1 o < (th2 : WithTop K)
      · rw [if_pos ha2]
        intro k'
        by_cases hk : k' = okey idx1 o
        · subst hk
          right
          exact ⟨mget_mdel_self h1 _, avgD sq nodes idx1 o,
            mget_mset_self _ _ _, not_lt.1 ha1, ha2⟩
        · rw [mget_mdel_ne _ hk, mget_mset_ne _ _ hk]
          exact hrel k'
      · rw [if_neg ha2]
        intro k'
        by_cases hk : k' = okey idx1 o
        · subst hk
          left
          rw [mget_mdel_self h1, mget_mdel_self h2]
        · rw [mget_mdel_ne _ hk, mget_mdel_ne _ hk]
          exact hrel k'

theorem updStep_keys_nodup (sq : K → K) (th : K) (nodes : List (ClusterNode K))
    (idx1 o : Nat) {m : DistMatrix K} (h : (m.map (·.1)).Nodup) :
    ((updStep sq th nodes idx1 m o).map (·.1)).Nodup := by
  rw [updStep]
  split
  · exact h
  · split
    · exact mset_keys_nodup h _ _
    · exact mdel_keys_nodup h _

theorem rel_updateDistances {th1 th2 : K} (hth : th1 ≤ th2) (sq : K → K)
    (nodes : List (ClusterNode K)) (idx1 : Nat) (active : List Nat) :
    ∀ {m1 m2 : DistMatrix K}, MatrixRel th1 th2 m1 m2 →
      (m1.map (·.1)).Nodup → (m2.map (·.1)).Nodup →
      MatrixRel th1 th2 (updateDistances sq th1 nodes idx1 active m1)
        (updateDistances sq th2 nodes idx1 active m2) := by
  induction active with
  | nil =>
    intro m1 m2 hrel _ _
    exact hrel
  | cons o rest ih =>
    intro m1 m2 hrel h1 h2
    rw [updateDistances_eq, List.foldl_cons, ← updateDistances_eq,
      updateDistances_eq sq th2, List.foldl_cons, ← updateDistances_eq]
    exact ih (rel_updStep hth sq nodes idx1 o hrel h1 h2)
      (updStep_keys_nodup sq th1 nodes idx1 o h1)
      (updStep_keys_nodup sq th2 nodes idx1 o h2)

theorem updateDistances_keys_nodup (sq : K → K) (th : K) (nodes : List (ClusterNode K))
    (idx1 : Nat) (active : List Nat) :
    ∀ {m : DistMatrix K}, (m.map (·.1)).Nodup →
      ((updateDistances sq th nodes idx1 active m).map (·.1)).Nodup := by
  induction active with
  | nil =>
    intro m h
    exact h
  | cons o rest ih =>
    intro m h
    rw [updateDistances_eq, List.foldl_cons, ← updateDistances_eq]
    exact ih (updStep_keys_nodup sq th nodes idx1 o h)

theorem bmStep_eq_same {sq : K → K} {nodes : List (ClusterNode K)} {th : K}
    {m : DistMatrix K} {ij : Nat × Nat}
    (hsp : (nodes.getD ij.1 dummyNode).photoIds.headD ""
      = (nodes.getD ij.2 dummyNode).photoIds.headD "") :
    bmStep sq nodes th m ij = mset m ij ⊤ := by
  simp only [bmStep]
  rw [if_pos hsp]

theorem bmStep_eq_diff {sq : K → K} {nodes : List (ClusterNode K)} {th : K}
    {m : DistMatrix K} {ij : Nat × Nat} {d : K}
    (hsp : ¬ (nodes.getD ij.1 dummyNode).photoIds.headD ""
      = (nodes.getD ij.2 dummyNode).photoIds.headD "")
    (hd : d = calculateWeightedDistance sq
      ((nodes.getD ij.1 dummyNode).faces.headD (dummyFace, "")).1
      ((nodes.getD ij.2 dummyNode).faces.headD (dummyFace, "")).1) :
    bmStep sq nodes th m ij = if d < th then mset m ij (↑d) else m := by
  simp only [bmStep]
  rw [if_neg hsp, hd]

theorem bmStep_mget_ne {sq : K → K} {nodes : List (ClusterNode K)} {th : K}
    {m : DistMatrix K} {ij k' : Nat × Nat} (h : k' ≠ ij) :
    mget (bmStep sq nodes th m ij) k' = mget m k' := by
  by_cases hsp : (nodes.getD ij.1 dummyNode).photoIds.headD ""
      = (nodes.getD ij.2 dummyNode).photoIds.headD ""
  · rw [bmStep_eq_same hsp, mget_mset_ne _ _ h]
  · rw [bmStep_eq_diff hsp rfl]
    split
    · rw [mget_mset_ne _ _ h]
    · rfl

theorem bmStep_keys_nodup {sq : K → K} {nodes : List (ClusterNode K)} {th : K}
    {m : DistMatrix K} (h : (m.map (·.1)).Nodup) (ij : Nat × Nat) :
    ((bmStep sq nodes th m ij).map (·.1)).Nodup := by
  by_cases hsp : (nodes.getD ij.1 dummyNode).photoIds.headD ""
      = (nodes.getD ij.2 dummyNode).photoIds.headD ""
  · rw [bmStep_eq_same hsp]
    exact mset_keys_nodup h _ _
  · rw [bmStep_eq_diff hsp rfl]
    split
    · exact mset_keys_nodup h _ _
    · exact h

/-- One matrix-construction step at the two thresholds preserves
`MatrixRel`, provided the written key is still unset on the lower side. -/
theorem rel_bmStep {th1 th2 : K} (hth : th1 ≤ th2) {sq : K → K}
    {nodes : List (ClusterNode K)} {ij : Nat × Nat} {m1 m2 : DistMatrix K}
    (hrel : MatrixRel th1 th2 m1 m2) (hf1 : mget m1 ij = none) :
    MatrixRel th1 th2 (bmStep sq nodes th1 m1 ij) (bmStep sq nodes th2 m2 ij) := by
  by_cases hsp : (nodes.getD ij.1 dummyNode).photoIds.headD ""
      = (nodes.getD ij.2 dummyNode).photoIds.headD ""
  · rw [bmStep_eq_same hsp, bmStep_eq_same hsp]
    intro k'
    by_cases hk : k' = ij
    · subst hk
      left
      rw [mget_mset_self, mget_mset_self]
    · rw [mget_mset_ne _ _ hk, mget_mset_ne _ _ hk]
      exact hrel k'
  · rw [bmStep_eq_diff hsp rfl, bmStep_eq_diff hsp rfl]
    set d := calculateWeightedDistance sq
      ((nodes.getD ij.1 dummyNode).faces.headD (dummyFace, "")).1
      ((nodes.getD ij.2 dummyNode).faces.headD (dummyFace, "")).1 with hd
    by_cases h1 : d < th1
    · rw [if_pos h1, if_pos (lt_of_lt_of_le h1 hth)]
      intro k'
      by_cases hk : k' = ij
      · subst hk
        left
        rw [mget_mset_self, mget_mset_self]
      · rw [mget_mset_ne _ _ hk, mget_mset_ne _ _ hk]
        exact hrel k'
    · rw [if_neg h1]
      by_cases h2 : d < th2
      · rw [if_pos h2]
        intro k'
        by_cases hk : k' = ij
        · subst hk
          right
          exact ⟨hf1, (↑d : WithTop K), mget_mset_self _ _ _,
            WithTop.coe_le_coe.2 (not_lt.1 h1), WithTop.coe_lt_coe.2 h2⟩
        · rw [mget_mset_ne _ _ hk]
          exact hrel k'
      · rw [if_neg h2]
        exact hrel

theorem rel_bmFold {th1 th2 : K} (hth : th1 ≤ th2) (sq : K → K)
    (nodes : List (ClusterNode K)) :
    ∀ (ps : List (Nat × Nat)), ps.Nodup →
    ∀ {m1 m2 : DistMatrix K}, MatrixRel th1 th2 m1 m2 →
      (∀ ij ∈ ps, mget m1 ij = none) →
      MatrixRel th1 th2 (ps.foldl (bmStep sq nodes th1) m1)
        (ps.foldl (bmStep sq nodes th2) m2) := by
  intro ps
  induction ps with
  | nil =>
    intro _ m1 m2 hrel _
    exact hrel
  | cons ij rest ih =>
    intro hnd m1 m2 hrel hfresh
    obtain ⟨hnotin, hnd'⟩ := List.nodup_cons.1 hnd
    simp only [List.foldl_cons]
    refine ih hnd' (rel_bmStep hth hrel (hfresh ij (List.mem_cons_self _ _))) ?_
    intro ij' hij'
    have hne : ij' ≠ ij := fun he => hnotin (he ▸ hij')
    rw [bmStep_mget_ne hne]
    exact hfresh ij' (List.mem_cons_of_mem _ hij')

theorem pairList_nodup (n : Nat) : (pairList n).Nodup := by
  rw [pairList, List.nodup_flatMap]
  refine ⟨?_, ?_⟩
  · intro i _
    refine List.Nodup.map ?_ ((List.nodup_range n).filter _)
    intro a b h
    exact (Prod.ext_iff.1 h).2
  · refine List.Pairwise.imp ?_ (List.nodup_range n)
    intro a b hab x hx1 hx2
    obtain ⟨j1, _, rfl⟩ := List.mem_map.1 hx1
    obtain ⟨j2, _, hx⟩ := List.mem_map.1 hx2
    exact hab (congrArg Prod.fst hx).symm

/-- The initial matrices built at the two thresholds are related: every
recorded distance below `th1` is recorded in both, and a distance in
`[th1, th2)` is recorded only in the higher-threshold matrix. -/
theorem rel_buildMatrix {th1 th2 : K} (hth : th1 ≤ th2) (sq : K → K)
    (nodes : List (ClusterNode K)) :
    MatrixRel th1 th2 (buildMatrix sq nodes th1) (buildMatrix sq nodes th2) := by
  rw [buildMatrix_eq, buildMatrix_eq]
  refine rel_bmFold hth sq nodes _ (pairList_nodup _) ?_ ?_
  · intro k
    left
    rfl
  · intro ij _
    rfl

theorem buildMatrix_keys_nodup (sq : K → K) (nodes : List (ClusterNode K)) (th : K) :
    ((buildMatrix sq nodes th).map (·.1)).Nodup := by
  rw [buildMatrix_eq]
  have main : ∀ (ps : List (Nat × Nat)) {m : DistMatrix K}, (m.map (·.1)).Nodup →
      ((ps.foldl (bmStep sq nodes th) m).map (·.1)).Nodup := by
    intro ps
    induction ps with
    | nil =>
      intro m h
      exact h
    | cons ij rest ih =>
      intro m h
      simp only [List.foldl_cons]
      exact ih (bmStep_keys_nodup h ij)
  exact main _ (by simp)

/-- The higher-threshold HAC run factors through the lower-threshold run:
starting from a `MatrixRel`-related matrix it passes through exactly the
lower run's final node array and active set, with some residual matrix,
and continues from there. -/
theorem hacLoop_bisim (sq : K → K) {th1 th2 : K} (hth : th1 ≤ th2) :
    ∀ (nodes : List (ClusterNode K)) (active : List Nat) (m1 : DistMatrix K),
      ∀ m2 : DistMatrix K, MatrixRel th1 th2 m1 m2 →
      (m1.map (·.1)).Nodup → (m2.map (·.1)).Nodup →
      ∃ m2', hacLoop sq th2 nodes active m2 =
        hacLoop sq th2 (hacLoop sq th1 nodes active m1).1
          (hacLoop sq th1 nodes active m1).2 m2' := by
  intro nodes active m1
  induction nodes, active, m1 using hacLoop.induct sq th1 with
  | case1 nodes active m h =>
    intro m2 _ _ _
    refine ⟨m2, ?_⟩
    rw [hacLoop_eq_stop1 h, hacLoop_eq_stop1 h]
    show (nodes, active) = hacLoop sq th2 nodes active m2
    rw [hacLoop_eq_stop1 h]
  | case2 nodes active m h hfm =>
    intro m2 _ _ _
    rw [hacLoop_eq_stop2 h hfm]
    exact ⟨m2, rfl⟩
  | case3 nodes active m h p hfm hge =>
    intro m2 _ _ _
    rw [hacLoop_eq_stop3 h hfm hge]
    exact ⟨m2, rfl⟩
  | case4 nodes active m h p hfm hlt c1 c2 hc ih =>
    intro m2 hrel h1 h2
    have hc1 : c1 = nodes.getD p.1 dummyNode := rfl
    have hc2 : c2 = nodes.getD p.2 dummyNode := rfl
    rw [hc1, hc2] at hc
    have hfm2eq : findMinPair m2 active = findMinPair m active :=
      findMinPair_rel hrel active (not_le.1 hlt)
    have hfm2 : (findMinPair m2 active).2 = some p := by
      rw [hfm2eq]
      exact hfm
    have hlt2 : ¬ (th2 : WithTop K) ≤ (findMinPair m2 active).1 := by
      rw [hfm2eq]
      intro hge
      exact hlt (le_trans (WithTop.coe_le_coe.2 hth) hge)
    rw [hacLoop_eq_conflict h hfm hlt hc, hacLoop_eq_conflict h hfm2 hlt2 hc]
    exact ih (mdel m2 (okey p.1 p.2)) (rel_mdel hrel h1 h2 _)
      (mdel_keys_nodup h1 _) (mdel_keys_nodup h2 _)
  | case5 nodes active m h p hfm hlt c1 c2 hc nodes' active' ih =>
    intro m2 hrel h1 h2
    have hc1 : c1 = nodes.getD p.1 dummyNode := rfl
    have hc2 : c2 = nodes.getD p.2 dummyNode := rfl
    have hn' : nodes' = nodes.set p.1
        ⟨c1.id, c1.faces ++ c2.faces, addAll c1.photoIds c2.photoIds⟩ := rfl
    have ha' : active' = active.erase p.2 := rfl
    rw [hc1, hc2] at hn' hc
    rw [hn', ha'] at ih
    have hfm2eq : findMinPair m2 active = findMinPair m active :=
      findMinPair_rel hrel active (not_le.1 hlt)
    have hfm2 : (findMinPair m2 active).2 = some p := by
      rw [hfm2eq]
      exact hfm
    have hlt2 : ¬ (th2 : WithTop K) ≤ (findMinPair m2 active).1 := by
      rw [hfm2eq]
      intro hge
      exact hlt (le_trans (WithTop.coe_le_coe.2 hth) hge)
    rw [hacLoop_eq_merge h hfm hlt hc, hacLoop_eq_merge h hfm2 hlt2 hc]
    exact ih _ (rel_updateDistances hth sq _ p.1 (active.erase p.2) hrel h1 h2)
      (updateDistances_keys_nodup sq th1 _ p.1 _ h1)
      (updateDistances_keys_nodup sq th2 _ p.1 _ h2)

/-- Along any HAC run a node's face list only ever grows: every initially
active node ends up inside some final active node. -/
theorem hacLoop_grow (sq : K → K) (th : K) :
    ∀ (nodes : List (ClusterNode K)) (active : List Nat) (m : DistMatrix K),
      active.Nodup → (∀ i ∈ active, i < nodes.length) →
      ∀ idx ∈ active, ∃ idx' ∈ (hacLoop sq th nodes active m).2,
        ∀ x ∈ (nodes.getD idx dummyNode).faces,
          x ∈ ((hacLoop sq th nodes active m).1.getD idx' dummyNode).faces := by
  intro nodes active m
  induction nodes, active, m using hacLoop.induct sq th with
  | case1 nodes active m h =>
    intro _ _ idx hidx
    rw [hacLoop_eq_stop1 h]
    exact ⟨idx, hidx, fun x hx => hx⟩
  | case2 nodes active m h hfm =>
    intro _ _ idx hidx
    rw [hacLoop_eq_stop2 h hfm]
    exact ⟨idx, hidx, fun x hx => hx⟩
  | case3 nodes active m h p hfm hge =>
    intro _ _ idx hidx
    rw [hacLoop_eq_stop3 h hfm hge]
    exact ⟨idx, hidx, fun x hx => hx⟩
  | case4 nodes active m h p hfm hlt c1 c2 hc ih =>
    intro hnd hbd idx hidx
    have hc1 : c1 = nodes.getD p.1 dummyNode := rfl
    have hc2 : c2 = nodes.getD p.2 dummyNode := rfl
    rw [hc1, hc2] at hc
    rw [hacLoop_eq_conflict h hfm hlt hc]
    exact ih hnd hbd idx hidx
  | case5 nodes active m h p hfm hlt c1 c2 hc nodes' active' ih =>
    intro hnd hbd idx hidx
    have hc1 : c1 = nodes.getD p.1 dummyNode := rfl
    have hc2 : c2 = nodes.getD p.2 dummyNode := rfl
    have hn' : nodes' = nodes.set p.1
        ⟨c1.id, c1.faces ++ c2.faces, addAll c1.photoIds c2.photoIds⟩ := rfl
    have ha' : active' = active.erase p.2 := rfl
    rw [hc1, hc2] at hn' hc
    rw [hn', ha'] at ih
    rw [hacLoop_eq_merge h hfm hlt hc]
    have hp := findMinPair_some hfm
    obtain ⟨hm1, hm2⟩ := mem_allPairs hp.2
    have hne : p.1 ≠ p.2 := mem_allPairs_ne hnd hp.2
    have hnd2 : (active.erase p.2).Nodup := hnd.erase _
    have hmem1' : p.1 ∈ active.erase p.2 :=
      (List.Nodup.mem_erase_iff hnd).2 ⟨hne, hm1⟩
    set nd : ClusterNode K := ⟨(nodes.getD p.1 dummyNode).id,
      (nodes.getD p.1 dummyNode).faces ++ (nodes.getD p.2 dummyNode).faces,
      addAll (nodes.getD p.1 dummyNode).photoIds
        (nodes.getD p.2 dummyNode).photoIds⟩ with hnd_def
    have hbd2 : ∀ i ∈ active.erase p.2, i < (nodes.set p.1 nd).length := by
      intro i hi
      rw [List.length_set]
      exact hbd i (List.mem_of_mem_erase hi)
    by_cases hidx2 : idx = p.2
    · obtain ⟨idx', hidx', hsub⟩ := ih hnd2 hbd2 p.1 hmem1'
      refine ⟨idx', hidx', ?_⟩
      intro x hx
      refine hsub x ?_
      rw [getD_set_self _ _ (hbd p.1 hm1)]
      rw [hidx2] at hx
      exact List.mem_append_right _ hx
    · have hmem : idx ∈ active.erase p.2 := (List.Nodup.mem_erase_iff hnd).2 ⟨hidx2, hidx⟩
      obtain ⟨idx', hidx', hsub⟩ := ih hnd2 hbd2 idx hmem
      refine ⟨idx', hidx', ?_⟩
      intro x hx
      refine hsub x ?_
      by_cases hpe : idx = p.1
      · rw [hpe, getD_set_self _ _ (hbd p.1 hm1)]
        rw [hpe] at hx
        exact List.mem_append_left _ hx
      · rw [getD_set_ne _ _ hpe]
        exact hx

theorem addAll_mem (x : String) : ∀ (t s : List String), x ∈ addAll s t ↔ x ∈ s ∨ x ∈ t := by
  intro t
  induction t with
  | nil =>
    intro s
    rw [addAll]
    simp
  | cons p rest ih =>
    intro s
    rw [addAll, ih]
    by_cases hp : p ∈ s
    · rw [if_pos hp]
      constructor
      · rintro (h | h)
        · exact Or.inl h
        · exact Or.inr (List.mem_cons_of_mem _ h)
      · rintro (h | h)
        · exact Or.inl h
        · rcases List.mem_cons.1 h with h | h
          · exact Or.inl (h ▸ hp)
          · exact Or.inr h
    · rw [if_neg hp]
      constructor
      · rintro (h | h)
        · rcases List.mem_append.1 h with h | h
          · exact Or.inl h
          · exact Or.inr (List.mem_cons.2 (Or.inl (List.mem_singleton.1 h)))
        · exact Or.inr (List.mem_cons_of_mem _ h)
      · rintro (h | h)
        · exact Or.inl (List.mem_append_left _ h)
        · rcases List.mem_cons.1 h with h | h
          · exact Or.inl (List.mem_append_right _ (h ▸ List.mem_singleton_self _))
          · exact Or.inr h

/-- The conflict check guarantees that every active node keeps a
duplicate-free photo list over its faces, a `photoIds` field that tracks
exactly those photos, and at least one face. -/
theorem hacLoop_valid (sq : K → K) (th : K) :
    ∀ (nodes : List (ClusterNode K)) (active : List Nat) (m : DistMatrix K),
      active.Nodup → (∀ i ∈ active, i < nodes.length) →
      (∀ i ∈ active,
        ((nodes.getD i dummyNode).faces.map (·.2)).Nodup ∧
          (∀ pid, pid ∈ (nodes.getD i dummyNode).photoIds ↔
            pid ∈ (nodes.getD i dummyNode).faces.map (·.2)) ∧
          (nodes.getD i dummyNode).faces ≠ []) →
      ∀ i ∈ (hacLoop sq th nodes active m).2,
        (((hacLoop sq th nodes active m).1.getD i dummyNode).faces.map (·.2)).Nodup ∧
          (∀ pid, pid ∈ ((hacLoop sq th nodes active m).1.getD i dummyNode).photoIds ↔
            pid ∈ ((hacLoop sq th nodes active m).1.getD i dummyNode).faces.map (·.2)) ∧
          ((hacLoop sq th nodes active m).1.getD i dummyNode).faces ≠ [] := by
  intro nodes active m
  induction nodes, active, m using hacLoop.induct sq th with
  | case1 nodes active m h =>
    intro _ _ hv
    rw [hacLoop_eq_stop1 h]
    exact hv
  | case2 nodes active m h hfm =>
    intro _ _ hv
    rw [hacLoop_eq_stop2 h hfm]
    exact hv
  | case3 nodes active m h p hfm hge =>
    intro _ _ hv
    rw [hacLoop_eq_stop3 h hfm hge]
    exact hv
  | case4 nodes active m h p hfm hlt c1 c2 hc ih =>
    intro hnd hbd hv
    have hc1 : c1 = nodes.getD p.1 dummyNode := rfl
    have hc2 : c2 = nodes.getD p.2 dummyNode := rfl
    rw [hc1, hc2] at hc
    rw [hacLoop_eq_conflict h hfm hlt hc]
    exact ih hnd hbd hv
  | case5 nodes active m h p hfm hlt c1 c2 hc nodes' active' ih =>
    intro hnd hbd hv
    have hc1 : c1 = nodes.getD p.1 dummyNode := rfl
    have hc2 : c2 = nodes.getD p.2 dummyNode := rfl
    have hn' : nodes' = nodes.set p.1
        ⟨c1.id, c1.faces ++ c2.faces, addAll c1.photoIds c2.photoIds⟩ := rfl
    have ha' : active' = active.erase p.2 := rfl
    rw [hc1, hc2] at hn' hc
    rw [hn', ha'] at ih
    rw [hacLoop_eq_merge h hfm hlt hc]
    have hp := findMinPair_some hfm
    obtain ⟨hm1, hm2⟩ := mem_allPairs hp.2
    have hne : p.1 ≠ p.2 := mem_allPairs_ne hnd hp.2
    have hnd2 : (active.erase p.2).Nodup := hnd.erase _
    set nd : ClusterNode K := ⟨(nodes.getD p.1 dummyNode).id,
      (nodes.getD p.1 dummyNode).faces ++ (nodes.getD p.2 dummyNode).faces,
      addAll (nodes.getD p.1 dummyNode).photoIds
        (nodes.getD p.2 dummyNode).photoIds⟩ with hnd_def
    have hbd2 : ∀ i ∈ active.erase p.2, i < (nodes.set p.1 nd).length := by
      intro i hi
      rw [List.length_set]
      exact hbd i (List.mem_of_mem_erase hi)
    refine ih hnd2 hbd2 ?_
    intro i hi
    obtain ⟨v1nd, v1iff, v1ne⟩ := hv p.1 hm1
    obtain ⟨v2nd, v2iff, v2ne⟩ := hv p.2 hm2
    by_cases hip : i = p.1
    · rw [hip, getD_set_self _ _ (hbd p.1 hm1)]
      have hdisj : ((nodes.getD p.1 dummyNode).faces.map (·.2)).Disjoint
          ((nodes.getD p.2 dummyNode).faces.map (·.2)) := by
        intro a ha1 ha2
        have ha2p : a ∈ (nodes.getD p.2 dummyNode).photoIds := (v2iff a).2 ha2
        have ha1p : a ∈ (nodes.getD p.1 dummyNode).photoIds := (v1iff a).2 ha1
        refine hc ?_
        rw [List.any_eq_true]
        exact ⟨a, ha2p, decide_eq_true ha1p⟩
      refine ⟨?_, ?_, ?_⟩
      · show (((nodes.getD p.1 dummyNode).faces ++
            (nodes.getD p.2 dummyNode).faces).map (·.2)).Nodup
        rw [List.map_append]
        exact List.Nodup.append v1nd v2nd hdisj
      · intro pid
        show pid ∈ addAll (nodes.getD p.1 dummyNode).photoIds
            (nodes.getD p.2 dummyNode).photoIds ↔ _
        rw [addAll_mem]
        show _ ↔ pid ∈ ((nodes.getD p.1 dummyNode).faces ++
            (nodes.getD p.2 dummyNode).faces).map (·.2)
        rw [List.map_append, List.mem_append, v1iff, v2iff]
      · show (nodes.getD p.1 dummyNode).faces ++ (nodes.getD p.2 dummyNode).faces ≠ []
        intro hnil
        exact v1ne (List.append_eq_nil.1 hnil).1
    · rw [getD_set_ne _ _ hip]
      exact hv i (List.mem_of_mem_erase hi)

theorem flatMap_singleton_map {α β : Type} (l : List α) (f : α → β) :
    (l.flatMap fun x => [f x]) = l.map f := by
  induction l with
  | nil => rfl
  | cons x xs ih =>
    rw [List.flatMap_cons, List.map_cons, ih]
    rfl

/-- Every initial node is a singleton: one face, its photo id recorded both
in the face pair and in `photoIds`. -/
theorem initNodes_valid (allFaces : List (String × List (FaceDetection K))) :
    ∀ i ∈ List.range (initNodes allFaces).length,
      (((initNodes allFaces).getD i dummyNode).faces.map (·.2)).Nodup ∧
        (∀ pid, pid ∈ ((initNodes allFaces).getD i dummyNode).photoIds ↔
          pid ∈ ((initNodes allFaces).getD i dummyNode).faces.map (·.2)) ∧
        ((initNodes allFaces).getD i dummyNode).faces ≠ [] := by
  intro i hi
  have hlt : i < (initNodes allFaces).length := List.mem_range.1 hi
  have hmem : (initNodes allFaces).getD i dummyNode ∈ initNodes allFaces := by
    rw [List.getD_eq_getElem _ _ hlt]
    exact List.getElem_mem hlt
  have hmem2 : (initNodes allFaces).getD i dummyNode ∈
      allFaces.flatMap fun pf => pf.2.map fun face =>
        (⟨face.id, [(face, pf.1)], [pf.1]⟩ : ClusterNode K) := hmem
  obtain ⟨pf, _, hnd⟩ := List.mem_flatMap.1 hmem2
  obtain ⟨face, _, heq⟩ := List.mem_map.1 hnd
  rw [← heq]
  exact ⟨by simp, fun pid => by simp, by simp⟩

/-- When every active node is conflict-free (which `hacLoop` guarantees
from singleton starts), the co-occurrence repair is the identity and the
final sub-cluster list is exactly the active nodes' face lists. -/
theorem clusterFacesCore_eq_valid (sq : K → K)
    (allFaces : List (String × List (FaceDetection K))) (th : K) :
    clusterFacesCore sq allFaces th =
      (hacLoop sq th (initNodes allFaces) (List.range (initNodes allFaces).length)
          (buildMatrix sq (initNodes allFaces) th)).2.map
        fun idx =>
          ((hacLoop sq th (initNodes allFaces) (List.range (initNodes allFaces).length)
              (buildMatrix sq (initNodes allFaces) th)).1.getD idx dummyNode).faces := by
  have hvalid := hacLoop_valid sq th (initNodes allFaces)
    (List.range (initNodes allFaces).length) (buildMatrix sq (initNodes allFaces) th)
    (List.nodup_range _) (fun i hi => List.mem_range.1 hi) (initNodes_valid allFaces)
  have hpt : ∀ idx ∈ (hacLoop sq th (initNodes allFaces)
      (List.range (initNodes allFaces).length)
      (buildMatrix sq (initNodes allFaces) th)).2,
      ((splitByCooccurrence ((hacLoop sq th (initNodes allFaces)
          (List.range (initNodes allFaces).length)
          (buildMatrix sq (initNodes allFaces) th)).1.getD idx dummyNode).faces).filter
        fun sub => decide (sub ≠ [])) =
      [((hacLoop sq th (initNodes allFaces) (List.range (initNodes allFaces).length)
          (buildMatrix sq (initNodes allFaces) th)).1.getD idx dummyNode).faces] := by
    intro idx hidx
    obtain ⟨hnd, _, hne⟩ := hvalid idx hidx
    rw [splitByCooccurrence_valid hne hnd]
    rw [List.filter_cons, if_pos (decide_eq_true hne), List.filter_nil]
  rw [clusterFacesCore]
  rw [List.flatMap_congr hpt]
  exact flatMap_singleton_map _ _

end HacBisim

/-- C3: for every input map and every pair of thresholds `th1 < th2`, each
cluster produced by `clusterFaces` at `th1` is a subset (by `faceIds`) of
some cluster produced at `th2` on the same input: raising the threshold
never splits a merge that was valid at the lower threshold. -/
theorem claim_C3_threshold_monotone {K : Type} [LinearOrderedField K] (sq : K → K)
    (allFaces : List (String × List (FaceDetection K))) {th1 th2 : K} (hth : th1 < th2) :
    ∀ c1 ∈ clusterFaces sq allFaces th1, ∃ c2 ∈ clusterFaces sq allFaces th2,
      ∀ fid ∈ c1.faceIds, fid ∈ c2.faceIds := by
  intro c1 hc1
  rw [clusterFaces] at hc1
  obtain ⟨sub1, hsub1, rfl⟩ := List.mem_map.1 ((sortByDesc_perm _ _).subset hc1)
  rw [clusterFacesCore_eq_valid] at hsub1
  obtain ⟨idx1, hidx1, rfl⟩ := List.mem_map.1 hsub1
  obtain ⟨_, hnd1, hbd1, _⟩ := hacLoop_invariant sq th1 (initNodes allFaces)
    (List.range (initNodes allFaces).length) (buildMatrix sq (initNodes allFaces) th1)
    (List.nodup_range _) (fun i hi => List.mem_range.1 hi)
  obtain ⟨m2', hbisim⟩ := hacLoop_bisim sq (le_of_lt hth) (initNodes allFaces)
    (List.range (initNodes allFaces).length) (buildMatrix sq (initNodes allFaces) th1)
    (buildMatrix sq (initNodes allFaces) th2)
    (rel_buildMatrix (le_of_lt hth) sq _)
    (buildMatrix_keys_nodup sq _ th1) (buildMatrix_keys_nodup sq _ th2)
  obtain ⟨idx2, hidx2, hgrow⟩ := hacLoop_grow sq th2
    (hacLoop sq th1 (initNodes allFaces) (List.range (initNodes allFaces).length)
      (buildMatrix sq (initNodes allFaces) th1)).1
    (hacLoop sq th1 (initNodes allFaces) (List.range (initNodes allFaces).length)
      (buildMatrix sq (initNodes allFaces) th1)).2 m2' hnd1 hbd1 idx1 hidx1
  rw [← hbisim] at hidx2 hgrow
  refine ⟨summarize (((hacLoop sq th2 (initNodes allFaces)
      (List.range (initNodes allFaces).length)
      (buildMatrix sq (initNodes allFaces) th2)).1.getD idx2 dummyNode).faces), ?_, ?_⟩
  · rw [clusterFaces]
    refine (sortByDesc_perm _ _).mem_iff.2 ?_
    refine List.mem_map.2 ⟨_, ?_, rfl⟩
    rw [clusterFacesCore_eq_valid]
    exact List.mem_map.2 ⟨idx2, hidx2, rfl⟩
  · intro fid hfid
    rw [summarize_faceIds] at hfid ⊢
    obtain ⟨x, hx, rfl⟩ := List.mem_map.1 hfid
    exact List.mem_map.2 ⟨x, hgrow x hx, rfl⟩

/-- Witness for C3 at a concrete input: thresholds `0 < 1` over `ℚ`. -/
theorem claim_C3_threshold_monotone_witness :
    (0 : ℚ) < 1 ∧
      ∀ c1 ∈ clusterFaces id ([] : List (String × List (FaceDetection ℚ))) 0,
        ∃ c2 ∈ clusterFaces id ([] : List (String × List (FaceDetection ℚ))) 1,
          ∀ fid ∈ c1.faceIds, fid ∈ c2.faceIds :=
  ⟨by norm_num, claim_C3_threshold_monotone id [] (by norm_num)⟩

/-- Witness for C1 at a concrete input: a single face in a single photo at
threshold `0` over `ℚ`; its summary is the unique returned cluster. -/
theorem claim_C1_cluster_disjointness_witness :
    summarize [((⟨"a", ⟨0, 0, 1, 1⟩, [], none, none, none, none⟩ : FaceDetection ℚ), "p1")]
      ∈ clusterFaces id
        [("p1", [⟨"a", ⟨0, 0, 1, 1⟩, [], none, none, none, none⟩])] 0 ∧
    ∃ sub ∈ clusterFacesCore id
        [("p1", [(⟨"a", ⟨0, 0, 1, 1⟩, [], none, none, none, none⟩ : FaceDetection ℚ)])] 0,
      summarize [((⟨"a", ⟨0, 0, 1, 1⟩, [], none, none, none, none⟩ : FaceDetection ℚ), "p1")]
          = summarize sub ∧
        (summarize [((⟨"a", ⟨0, 0, 1, 1⟩, [], none, none, none, none⟩ :
            FaceDetection ℚ), "p1")]).faceIds = sub.map (·.1.id) ∧
        (sub.map (·.2)).Nodup := by
  have hcore : clusterFacesCore id
      [("p1", [(⟨"a", ⟨0, 0, 1, 1⟩, [], none, none, none, none⟩ : FaceDetection ℚ)])] 0
      = [[((⟨"a", ⟨0, 0, 1, 1⟩, [], none, none, none, none⟩ : FaceDetection ℚ), "p1")]] := by
    rw [clusterFacesCore_eq_valid]
    rw [hacLoop_eq_stop1 (by decide)]
    rfl
  have hmem : summarize [((⟨"a", ⟨0, 0, 1, 1⟩, [], none, none, none, none⟩ :
      FaceDetection ℚ), "p1")] ∈ clusterFaces id
        [("p1", [⟨"a", ⟨0, 0, 1, 1⟩, [], none, none, none, none⟩])] 0 := by
    rw [clusterFaces, hcore]
    exact List.mem_singleton_self _
  exact ⟨hmem, claim_C1_cluster_disjointness id _ 0 _ hmem⟩
